import Mathlib

/-!
Verification development for the `sst-export-translation` Excel-to-JSON
export tool.  The definitions below are a shallow embedding of the
`export-translation` IPC handler of the Electron main process (the only
file with real logic): the cell-text extraction, the key/value regex,
the per-language accumulation, the folder-name derivation, the manual
JSON construction, and the orchestration with its filesystem effects.
-/

namespace SST

/-- A JavaScript runtime value as far as this program can observe one in
a spreadsheet cell: a string, a number, a boolean, or `undefined`. -/
inductive JSValue where
  | str (s : String)
  | num (n : Int)
  | boolean (b : Bool)
  | undef
deriving DecidableEq, Repr

/-- JavaScript truthiness for the values above: non-empty strings,
non-zero numbers and `true` are truthy. -/
def truthy : JSValue → Bool
  | .str s => s ≠ ""
  | .num n => n ≠ 0
  | .boolean b => b
  | .undef => false

/-- JavaScript `String(x)` coercion for the values above (used when a
value becomes an object property key). -/
def jsToString : JSValue → String
  | .str s => s
  | .num n => toString n
  | .boolean b => if b then "true" else "false"
  | .undef => "undefined"

/-- A spreadsheet cell as the `xlsx` library presents it: an optional
pre-rendered display string `w` and a raw value `v`.  An absent `w`
field is `none`; an absent `v` field is `JSValue.undef`. -/
structure Cell where
  w : Option String
  v : JSValue
deriving DecidableEq, Repr

/-- One worksheet: the populated cells, addressed by zero-based
(row, column), and the last occupied row of the declared range
(`range.e.r` after `XLSX.utils.decode_range(sheet["!ref"])`). -/
structure Sheet where
  cells : List ((Nat × Nat) × Cell)
  endRow : Nat
deriving DecidableEq, Repr

/-- A workbook: its named sheets, as `workbook.Sheets`. -/
structure Workbook where
  sheets : List (String × Sheet)
deriving DecidableEq, Repr

/-- `sheet[XLSX.utils.encode_cell({r, c})]`: look a cell up by
coordinates. -/
def getCell (sh : Sheet) (r c : Nat) : Option Cell :=
  (sh.cells.find? (fun e => e.1 = (r, c))).map (·.2)

/-- `workbook.Sheets[name]`. -/
def lookupSheet (wb : Workbook) (name : String) : Option Sheet :=
  (wb.sheets.find? (fun e => e.1 = name)).map (·.2)

/-- Line 72 of the handler: `cell ? (cell.w || cell.v) : undefined`.
`cell.w || cell.v` is JavaScript `||`, so an *empty* display string
falls through to the raw value. -/
def headerVal (sh : Sheet) (col : Nat) : JSValue :=
  match getCell sh 1 col with
  | none => .undef
  | some cell =>
    match cell.w with
    | some s => if s = "" then cell.v else .str s
    | none => cell.v

/-- A column's language name: the header value when it is truthy
(`if (!langName) continue`), coerced to the string used as object key. -/
def headerName (sh : Sheet) (col : Nat) : Option String :=
  let h := headerVal sh col
  if truthy h then some (jsToString h) else none

/-- Lines 96–101 of the handler (the Cell-Text Extractor): absent cell
→ nothing; `rawValue = cell.w || cell.v`; then
`if (!rawValue || typeof rawValue !== "string") continue`. -/
def extractText (cell : Option Cell) : Option String :=
  match cell with
  | none => none
  | some c =>
    let raw : JSValue :=
      match c.w with
      | some s => if s = "" then c.v else .str s
      | none => c.v
    match raw with
    | .str s => if s = "" then none else some s
    | _ => none

/-- The Cell-Text Extractor as the spec's §4.1 words it: prefer the
display string whenever one exists, fall back to the raw value only if
no display string exists, and produce the result whenever it is a
string (of any length). -/
def extractTextSpec (cell : Option Cell) : Option String :=
  match cell with
  | none => none
  | some c =>
    let raw : JSValue :=
      match c.w with
      | some s => .str s
      | none => c.v
    match raw with
    | .str s => some s
    | _ => none

/-- The Cell-Text Extractor as amended: the display string is preferred
only when it is non-empty, and the result is produced only when it is a
non-empty string. -/
def extractTextAmended (cell : Option Cell) : Option String :=
  match cell with
  | none => none
  | some c =>
    let raw : JSValue :=
      match c.w with
      | some s => if s ≠ "" then .str s else c.v
      | none => c.v
    match raw with
    | .str s => if s ≠ "" then some s else none
    | _ => none

/-- `String.prototype.toLowerCase()`, modelled character-wise (the
language names this tool meets are ASCII, where this is exact). -/
def jsToLowerCase (s : String) : String :=
  String.mk (s.data.map Char.toLower)

/-- `String.prototype.substring(a, b)`: clamp both indices to the
string length, swap them if needed, and return the slice. -/
def jsSubstring (s : String) (a b : Nat) : String :=
  let n := s.data.length
  let a' := min a n
  let b' := min b n
  String.mk ((s.data.drop (min a' b')).take (max a' b' - min a' b'))

/-- Lines 142–145 of the handler (the Folder-Name Deriver):
`lang.toLowerCase() === "italian" ? "ita" : lang.toLowerCase().substring(0, 2)`. -/
def folderName (lang : String) : String :=
  if jsToLowerCase lang = "italian" then "ita"
  else jsSubstring (jsToLowerCase lang) 0 2

/-- The Folder-Name Deriver as the spec words it: lower-case; the fixed
irregular case maps to "ita"; otherwise the first two characters of the
lower-cased name. -/
def folderNameSpec (lang : String) : String :=
  let l := jsToLowerCase lang
  if l = "italian" then "ita" else String.mk (l.data.take 2)

/-- JavaScript's `\s` character class (ECMA-262 WhiteSpace and
LineTerminator code points). -/
def jsSpace (c : Char) : Bool :=
  c = ' ' || c = '\t' || c = '\n' || c = '\r' || c = '\x0b' || c = '\x0c' ||
  c = '\u00A0' || c = '\u1680' ||
  (0x2000 ≤ c.toNat && c.toNat ≤ 0x200A) ||
  c = '\u2028' || c = '\u2029' || c = '\u202F' || c = '\u205F' ||
  c = '\u3000' || c = '\uFEFF'

/-- The capture of the greedy `([\s\S]*)"` tail of the regex: the
prefix of `l` that precedes the *last* `"` in `l`, or `none` when `l`
holds no quote at all (in which case this attempt fails). -/
def valueCapture : List Char → Option (List Char)
  | [] => none
  | c :: rest =>
    match valueCapture rest with
    | some v => some (c :: v)
    | none => if c = '"' then some [] else none

/-- The `\s*:\s*"([\s\S]*)"` tail of one regex attempt, entered right
after the key's closing quote: optional whitespace, a colon, optional
whitespace, an opening quote, and the greedy value capture. -/
def parseColonValue (key : List Char) (l : List Char) :
    Option (List Char × List Char) :=
  match l.dropWhile jsSpace with
  | ':' :: rest5 =>
    match rest5.dropWhile jsSpace with
    | q2 :: rest7 =>
      if q2 = '"' then (valueCapture rest7).map (fun v => (key, v)) else none
    | [] => none
  | _ => none

/-- One attempt of `/"([^"]+)"\s*:\s*"([\s\S]*)"/` anchored at the head
of the input: a quote, a non-empty run of non-quote characters (the
key), its closing quote, then the colon/value tail. -/
def parseFrom (l : List Char) : Option (List Char × List Char) :=
  match l with
  | [] => none
  | c :: rest =>
    if c = '"' then
      let key := rest.takeWhile (fun x => x ≠ '"')
      if key = [] then none
      else
        match rest.dropWhile (fun x => x ≠ '"') with
        | q :: rest3 => if q = '"' then parseColonValue key rest3 else none
        | [] => none
    else none

/-- `String.prototype.match` for the regex above: try each start
position left to right and return the first successful attempt. -/
def matchKV : List Char → Option (List Char × List Char)
  | [] => none
  | c :: rest =>
    match parseFrom (c :: rest) with
    | some r => some r
    | none => matchKV rest

/-- Lines 103–109 of the handler (the Key-Value Line Parser):
`rawValue.match(/"([^"]+)"\s*:\s*"([\s\S]*)"/)`, returning the two
capture groups. -/
def lineParse (s : String) : Option (String × String) :=
  (matchKV s.data).map (fun p => (String.mk p.1, String.mk p.2))

/-- The lazy value capture the claim's words describe: the value is
terminated by the *next* quote, so it is the prefix of `l` before the
first `"`. -/
def valueCaptureLazy (l : List Char) : Option (List Char) :=
  if l.any (fun c => c = '"') then some (l.takeWhile (fun c => c ≠ '"'))
  else none

/-- One anchored attempt of the Key-Value Line Parser as the claim
words it, identical to `parseFrom` except that the value stops at the
next quote. -/
def parseFromLazy (l : List Char) : Option (List Char × List Char) :=
  match l with
  | [] => none
  | c :: rest =>
    if c = '"' then
      let key := rest.takeWhile (fun x => x ≠ '"')
      if key = [] then none
      else
        match rest.dropWhile (fun x => x ≠ '"') with
        | q :: rest3 =>
          if q = '"' then
            match rest3.dropWhile jsSpace with
            | ':' :: rest5 =>
              match rest5.dropWhile jsSpace with
              | q2 :: rest7 =>
                if q2 = '"' then (valueCaptureLazy rest7).map (fun v => (key, v))
                else none
              | [] => none
            | _ => none
          else none
        | [] => none
    else none

/-- First-occurrence search for the lazy reading of the claim. -/
def matchKVLazy : List Char → Option (List Char × List Char)
  | [] => none
  | c :: rest =>
    match parseFromLazy (c :: rest) with
    | some r => some r
    | none => matchKVLazy rest

/-- The Key-Value Line Parser as the claim words it ("value terminated
by the next quote"). -/
def lineParseSpec (s : String) : Option (String × String) :=
  (matchKVLazy s.data).map (fun p => (String.mk p.1, String.mk p.2))

/-- A JSON value.  String and number tokens keep their raw source
characters: the program never unescapes or evaluates them, it only
needs the shape of the document. -/
inductive JsonVal where
  | str (raw : List Char)
  | num (raw : List Char)
  | boolean (b : Bool)
  | null
  | arr (xs : List JsonVal)
  | obj (ms : List (List Char × JsonVal))

/-- RFC 8259 insignificant whitespace. -/
def jsonWs (c : Char) : Bool :=
  c = ' ' || c = '\t' || c = '\n' || c = '\r'

/-- Drop leading JSON whitespace. -/
def skipWs (l : List Char) : List Char :=
  l.dropWhile jsonWs

/-- Is `c` a hexadecimal digit? -/
def isHex (c : Char) : Bool :=
  c.isDigit || ('a' ≤ c && c ≤ 'f') || ('A' ≤ c && c ≤ 'F')

/-- Parse the body of a JSON string literal (the opening `"` already
consumed): raw control characters are forbidden, a backslash must start
a legal escape, and the body runs to the closing `"`.  Returns the raw
body and the remaining input. -/
def parseStringBody : List Char → Option (List Char × List Char)
  | [] => none
  | c :: rest =>
    if c = '"' then some ([], rest)
    else if c = '\\' then
      match rest with
      | [] => none
      | e :: rest2 =>
        if e = 'u' then
          match rest2 with
          | h1 :: h2 :: h3 :: h4 :: rest3 =>
            if isHex h1 && isHex h2 && isHex h3 && isHex h4 then
              (parseStringBody rest3).map
                (fun p => (c :: e :: h1 :: h2 :: h3 :: h4 :: p.1, p.2))
            else none
          | _ => none
        else if e = '"' || e = '\\' || e = '/' || e = 'b' || e = 'f' ||
                e = 'n' || e = 'r' || e = 't' then
          (parseStringBody rest2).map (fun p => (c :: e :: p.1, p.2))
        else none
    else if c.toNat < 0x20 then none
    else (parseStringBody rest).map (fun p => (c :: p.1, p.2))

/-- Parse a JSON number token at the head of the input, returning its
raw characters and the rest. -/
def parseNumber (l : List Char) : Option (List Char × List Char) :=
  let (sign, l1) :=
    match l with
    | '-' :: t => (['-'], t)
    | _ => ([], l)
  let intPart := l1.takeWhile Char.isDigit
  let l2 := l1.dropWhile Char.isDigit
  if intPart = [] then none
  else if intPart.head? = some '0' && intPart.length > 1 then none
  else
    let (frac, l3) :=
      match l2 with
      | '.' :: t =>
        let ds := t.takeWhile Char.isDigit
        if ds = [] then ([], l2) else ('.' :: ds, t.dropWhile Char.isDigit)
      | _ => ([], l2)
    if l2 ≠ l3 ∨ frac = [] then
      match l3 with
      | e :: t =>
        if e = 'e' || e = 'E' then
          let (es, t1) :=
            match t with
            | '+' :: t' => (['+'], t')
            | '-' :: t' => (['-'], t')
            | _ => ([], t)
          let ds := t1.takeWhile Char.isDigit
          if ds = [] then none
          else some (sign ++ intPart ++ frac ++ e :: es ++ ds,
                     t1.dropWhile Char.isDigit)
        else some (sign ++ intPart ++ frac, l3)
      | [] => some (sign ++ intPart ++ frac, l3)
    else none

/-- Does `pat` head the input?  If so return the rest. -/
def stripLit : List Char → List Char → Option (List Char)
  | [], l => some l
  | _ :: _, [] => none
  | p :: ps, c :: cs => if p = c then stripLit ps cs else none

mutual

/-- Parse one JSON value (fuel-indexed recursion; the fuel only has to
dominate the nesting depth and member/element count). -/
def parseValue : Nat → List Char → Option (JsonVal × List Char)
  | 0, _ => none
  | fuel + 1, l =>
    match skipWs l with
    | [] => none
    | c :: rest =>
      if c = '"' then
        (parseStringBody rest).map (fun p => (.str p.1, p.2))
      else if c = '\x7b' then
        match skipWs rest with
        | '\x7d' :: r => some (.obj [], r)
        | r => (parseMembers fuel r).map (fun p => (.obj p.1, p.2))
      else if c = '[' then
        match skipWs rest with
        | ']' :: r => some (.arr [], r)
        | r => (parseItems fuel r).map (fun p => (.arr p.1, p.2))
      else if c = 't' then
        (stripLit ['r', 'u', 'e'] rest).map (fun r => (.boolean true, r))
      else if c = 'f' then
        (stripLit ['a', 'l', 's', 'e'] rest).map (fun r => (.boolean false, r))
      else if c = 'n' then
        (stripLit ['u', 'l', 'l'] rest).map (fun r => (.null, r))
      else
        (parseNumber (c :: rest)).map (fun p => (.num p.1, p.2))

/-- Parse a non-empty member list of a JSON object, up to and including
the closing brace. -/
def parseMembers : Nat → List Char → Option (List (List Char × JsonVal) × List Char)
  | 0, _ => none
  | fuel + 1, l =>
    match skipWs l with
    | '"' :: r =>
      match parseStringBody r with
      | some (k, r2) =>
        match skipWs r2 with
        | ':' :: r3 =>
          match parseValue fuel r3 with
          | some (v, r4) =>
            match skipWs r4 with
            | ',' :: r5 =>
              (parseMembers fuel r5).map (fun p => ((k, v) :: p.1, p.2))
            | '\x7d' :: r5 => some ([(k, v)], r5)
            | _ => none
          | none => none
        | _ => none
      | none => none
    | _ => none

/-- Parse a non-empty element list of a JSON array, up to and including
the closing bracket. -/
def parseItems : Nat → List Char → Option (List JsonVal × List Char)
  | 0, _ => none
  | fuel + 1, l =>
    match parseValue fuel l with
    | some (v, r) =>
      match skipWs r with
      | ',' :: r2 => (parseItems fuel r2).map (fun p => (v :: p.1, p.2))
      | ']' :: r2 => some ([v], r2)
      | _ => none
    | none => none

end

/-- Parse a complete JSON document: one value and nothing but
whitespace after it. -/
def jsonParse (l : List Char) : Option JsonVal :=
  match parseValue (l.length + 1) l with
  | some (v, rest) => if skipWs rest = [] then some v else none
  | none => none

/-- A character that may sit verbatim inside a JSON string literal
without affecting its structure: not a quote, not a backslash, not a
control character. -/
abbrev SafeChar (c : Char) : Prop :=
  c ≠ '"' ∧ c ≠ '\\' ∧ 0x20 ≤ c.toNat

/-- Numeric value of a digit string. -/
def natOfDigits (l : List Char) : Nat :=
  l.foldl (fun n c => 10 * n + (c.toNat - 48)) 0

/-- Is `s` a canonical array-index property key in the sense of
ECMA-262 (`"0"`, or digits without a leading zero, below 2^32 − 1)?
Such keys are enumerated first, in ascending numeric order, by
`Object.entries`. -/
def isArrayIndex (s : String) : Bool :=
  s.data ≠ [] && s.data.all Char.isDigit &&
  (s.data.head? ≠ some '0' || s.data.length = 1) &&
  natOfDigits s.data < 4294967295

/-- Insert into a sorted list (insertion sort step). -/
def insertBy {α : Type} (le : α → α → Bool) (a : α) : List α → List α
  | [] => [a]
  | b :: l => if le a b then a :: b :: l else b :: insertBy le a l

/-- Insertion sort. -/
def sortBy {α : Type} (le : α → α → Bool) : List α → List α
  | [] => []
  | a :: l => insertBy le a (sortBy le l)

/-- `Object.entries` enumeration order over an insertion-ordered
association list: array-index keys first, ascending, then the remaining
keys in insertion order. -/
def jsEntries {α : Type} (l : List (String × α)) : List (String × α) :=
  sortBy (fun a b => natOfDigits a.1.data ≤ natOfDigits b.1.data)
      (l.filter (fun p => isArrayIndex p.1)) ++
    l.filter (fun p => !isArrayIndex p.1)

/-- `  "k": "v"`, the member line the handler builds by template
interpolation (lines 153–158): the key and value characters are spliced
in verbatim. -/
def memberChars (kv : List Char × List Char) : List Char :=
  ' ' :: ' ' :: '"' :: kv.1 ++ '"' :: ':' :: ' ' :: '"' :: kv.2 ++ ['"']

/-- `Array.prototype.join(",\n")`. -/
def joinComma : List (List Char) → List Char
  | [] => []
  | [m] => m
  | m :: m2 :: ms => m ++ ',' :: '\n' :: joinComma (m2 :: ms)

/-- The full manually built JSON text:
`"{\n" + entries.map(template).join(",\n") + "\n}"`. -/
def jsonChars (entries : List (List Char × List Char)) : List Char :=
  '\x7b' :: '\n' :: joinComma (entries.map memberChars) ++ ['\n', '\x7d']

/-- The JSON Emitter's text for a dictionary (lines 153–158): the
members are the dictionary's entries in `Object.entries` order. -/
def jsonStringOf (dict : List (String × String)) : String :=
  String.mk (jsonChars ((jsEntries dict).map (fun kv => (kv.1.data, kv.2.data))))

/-- A dictionary (per-language key → value mapping): an association
list in key insertion order.  JavaScript object property writes keep
the first-insertion position of an existing key. -/
abbrev Dict : Type := List (String × String)

/-- `dict[k] = v`: replace in place when the key exists (keeping its
first-insertion position), append otherwise. -/
def dUpsert : List (String × String) → String → String → List (String × String)
  | [], k, v => [(k, v)]
  | kv :: rest, k, v =>
    if kv.1 = k then (k, v) :: rest else kv :: dUpsert rest k v

/-- Dictionary lookup (JavaScript property read). -/
def dLookup : List (String × String) → String → Option String
  | [], _ => none
  | kv :: rest, k => if kv.1 = k then some kv.2 else dLookup rest k

/-- The per-language map (`langData` / `eulaData`): an association
list from language name to dictionary, in key insertion order. -/
abbrev LangMap : Type := List (String × List (String × String))

/-- `m[name] = d` (initialization): replace in place or append. -/
def mAssign : LangMap → String → List (String × String) → LangMap
  | [], name, d => [(name, d)]
  | e :: rest, name, d =>
    if e.1 = name then (name, d) :: rest else e :: mAssign rest name d

/-- `m[name][k] = v`.  The base case for an absent `name` is
unreachable in the pipeline: the initialization loops seed every truthy
header name before any write happens (the running JavaScript would
throw there). -/
def mWrite : LangMap → String → String → String → LangMap
  | [], name, k, v => [(name, dUpsert [] k v)]
  | e :: rest, name, k, v =>
    if e.1 = name then (e.1, dUpsert e.2 k v) :: rest
    else e :: mWrite rest name k v

/-- Language-map lookup (JavaScript property read). -/
def mLookup : LangMap → String → Option (List (String × String))
  | [], _ => none
  | e :: rest, name => if e.1 = name then some e.2 else mLookup rest name

/-- The cumulative effect of a list of writes on one language's
optional dictionary: an existing dictionary absorbs every write; an
absent one is created by the first write. -/
def applyWrites (d0 : Option (List (String × String)))
    (ws : List (String × String)) : Option (List (String × String)) :=
  match d0, ws with
  | some d, ws => some (ws.foldl (fun d kv => dUpsert d kv.1 kv.2) d)
  | none, [] => none
  | none, w :: ws =>
    some (ws.foldl (fun d kv => dUpsert d kv.1 kv.2) (dUpsert [] w.1 w.2))

/-- The keys of a language map, in order. -/
def mKeys (m : LangMap) : List String :=
  m.map (·.1)

/-- The translation header/data columns, B–J (1–9). -/
def transCols : List Nat := List.range' 1 9

/-- The eula header/data columns, N–V (13–21). -/
def eulaCols : List Nat := List.range' 13 9

/-- The data rows: row 2 through the sheet's last occupied row. -/
def dataRows (sh : Sheet) : List Nat :=
  List.range' 2 (sh.endRow - 1)

/-- Lines 76–87: seed one empty dictionary per truthy header in the
given column range. -/
def initLangs (sh : Sheet) (cols : List Nat) : LangMap :=
  cols.foldl
    (fun m c =>
      match headerName sh c with
      | some n => mAssign m n []
      | none => m)
    []

/-- Lines 92–109 for one cell: skip columns without a language, absent
cells, non-text values and non-matching text; otherwise write the
parsed pair into that language's dictionary. -/
def processCell (sh : Sheet) (m : LangMap) (row col : Nat) : LangMap :=
  match headerName sh col with
  | none => m
  | some name =>
    match extractText (getCell sh row col) with
    | none => m
    | some s =>
      match lineParse s with
      | none => m
      | some kv => mWrite m name kv.1 kv.2

/-- One row of one column range. -/
def processRow (sh : Sheet) (cols : List Nat) (m : LangMap) (row : Nat) : LangMap :=
  cols.foldl (fun m c => processCell sh m row c) m

/-- Lines 76–130 (the Table Accumulator): seed both maps from the
header row, then walk every data row, translation columns first, eula
columns second. -/
def accumulate (sh : Sheet) : LangMap × LangMap :=
  (dataRows sh).foldl
    (fun p row => (processRow sh transCols p.1 row, processRow sh eulaCols p.2 row))
    (initLangs sh transCols, initLangs sh eulaCols)

/-- The parse outcome of one cell, tagged with its language:
`some (name, (key, value))` exactly when lines 92–109 perform a write. -/
def actionAt (sh : Sheet) (row col : Nat) : Option (String × String × String) :=
  match headerName sh col with
  | none => none
  | some name =>
    ((extractText (getCell sh row col)).bind (fun s => lineParse s)).map
      (fun kv => (name, kv.1, kv.2))

/-- Apply one optional write to the language map. -/
def mWriteAct (m : LangMap) (a : Option (String × String × String)) : LangMap :=
  match a with
  | none => m
  | some x => mWrite m x.1 x.2.1 x.2.2

/-- Concatenate a list of lists. -/
def catLists {α : Type} : List (List α) → List α
  | [] => []
  | l :: ls => l ++ catLists ls

/-- All writes of one column range in scan order: rows top to bottom,
columns left to right inside a row. -/
def scanActions (sh : Sheet) (cols : List Nat) : List (String × String × String) :=
  catLists ((dataRows sh).map (fun r => cols.filterMap (fun c => actionAt sh r c)))

/-- The successfully parsed (key, value) pairs of one language in scan
order. -/
def writesFor (sh : Sheet) (cols : List Nat) (name : String) : List (String × String) :=
  (scanActions sh cols).filterMap (fun a => if a.1 = name then some a.2 else none)

/-- A filesystem path, as the list of its segments. -/
abbrev FsPath : Type := List String

/-- The filesystem state the export touches: the set of directories and
the written files. -/
structure FS where
  dirs : List (List String)
  files : List (List String × String)
deriving DecidableEq, Repr

/-- `fs.existsSync` on a directory path (the empty path is the
pre-existing root the output directory is resolved against). -/
def dirExists (fs : FS) (p : List String) : Bool :=
  p.isEmpty || fs.dirs.contains p

/-- All non-empty prefixes of a path, shortest first. -/
def pathPrefixes (p : List String) : List (List String) :=
  (List.range p.length).map (fun i => p.take (i + 1))

/-- `fs.mkdirSync(p, { recursive: true })`: create the directory and
every missing ancestor; never fails. -/
def mkdirRec (fs : FS) (p : List String) : FS :=
  { fs with dirs := fs.dirs ++ pathPrefixes p }

/-- An error object: only its `message` is observable. -/
structure JsError where
  msg : String
deriving DecidableEq, Repr

/-- `fs.mkdirSync(p)` without options: single level only; throws
`ENOENT` when the parent directory is missing. -/
def mkdirOne (fs : FS) (p : List String) : Except JsError FS :=
  if dirExists fs p.dropLast then .ok { fs with dirs := fs.dirs ++ [p] }
  else .error ⟨"ENOENT: no such file or directory, mkdir " ++
    String.intercalate "/" p⟩

/-- Line 133: `if (!fs.existsSync(outputDir)) fs.mkdirSync(outputDir)`. -/
def ensureOutputDir (fs : FS) (od : List String) : Except JsError FS :=
  if dirExists fs od then .ok fs else mkdirOne fs od

/-- `fs.writeFileSync`: overwrite any previous file at the path. -/
def fsWrite (fs : FS) (p : List String) (content : String) : FS :=
  { fs with files := fs.files.filter (fun f => f.1 ≠ p) ++ [(p, content)] }

/-- `prettier.format(s, { parser: "json" })`, abstracted: it throws on
text that is not valid JSON and succeeds otherwise.  No claim depends
on the reformatted layout, so the successful result is modelled as the
input text itself. -/
def prettierFormat (s : String) : Except JsError String :=
  if (jsonParse s.data).isSome then .ok s
  else .error ⟨"SyntaxError: unexpected token in JSON input"⟩

/-- One completed file write of the emission loops: the language it was
performed for, the target file name, the full path pushed onto
`createdFiles`, and the written content. -/
structure FileEvent where
  lang : String
  fname : String
  path : List String
  content : String
deriving DecidableEq, Repr

/-- Lines 141–199, one emission loop (`translation.json` or
`eula.json`): for each language entry derive the folder, create it
recursively if missing, build the JSON text, format it, write the file
and record the path. -/
def emitAll (fname : String) (entries : List (String × List (String × String)))
    (od : List String) (fs : FS) (evs : List FileEvent) :
    Except (JsError × FS) (FS × List FileEvent) :=
  match entries with
  | [] => .ok (fs, evs)
  | (lang, dict) :: rest =>
    let langFolder := od ++ [folderName lang]
    let fs1 := if dirExists fs langFolder then fs else mkdirRec fs langFolder
    let fpath := langFolder ++ [fname]
    match prettierFormat (jsonStringOf dict) with
    | .error e => .error (e, fs1)
    | .ok content =>
      emitAll fname rest od (fsWrite fs1 fpath content)
        (evs ++ [⟨lang, fname, fpath, content⟩])

/-- The file event one emission-loop iteration produces for a language
entry. -/
def mkEvent (fname : String) (od : List String)
    (e : String × List (String × String)) : FileEvent :=
  ⟨e.1, fname, od ++ [folderName e.1, fname], jsonStringOf e.2⟩

/-- The fixed (deliberately misspelled) sheet name. -/
def sheetName : String := "json_tranlsation"

/-- Steps 1–5 of the Export Orchestrator, before the `try/catch` turns
an error into a failure result: open the workbook (its outcome is the
`wbr` argument), look the sheet up, accumulate, create the output
directory, emit both file families. -/
def exportInner (wbr : Except JsError Workbook) (od : List String) (fs0 : FS) :
    Except (JsError × FS) (FS × List FileEvent) :=
  match wbr with
  | .error e => .error (e, fs0)
  | .ok wb =>
    match lookupSheet wb sheetName with
    | none => .error (⟨"Sheet \"" ++ sheetName ++ "\" not found"⟩, fs0)
    | some sh =>
      match ensureOutputDir fs0 od with
      | .error e => .error (e, fs0)
      | .ok fs1 =>
        match emitAll "translation.json" (jsEntries (accumulate sh).1) od fs1 [] with
        | .error ef => .error ef
        | .ok (fs2, evs1) =>
          match emitAll "eula.json" (jsEntries (accumulate sh).2) od fs2 evs1 with
          | .error ef => .error ef
          | .ok (fs3, evs) => .ok (fs3, evs)

/-- The value resolved by the `export-translation` handler. -/
inductive JsResult where
  | success (message : String) (filesCreated : Nat) (files : List (List String))
  | failure (message : String)
deriving DecidableEq, Repr

/-- Is the result a success? -/
def JsResult.isSuccess : JsResult → Bool
  | .success _ _ _ => true
  | .failure _ => false

/-- Lines 50–213 (the Export Orchestrator): run the pipeline inside
`try/catch`; on success report the created files, on any thrown error
report a failure carrying that error's message.  The final filesystem
state is returned alongside. -/
def exportTranslation (wbr : Except JsError Workbook) (od : List String)
    (fs0 : FS) : JsResult × FS :=
  match exportInner wbr od fs0 with
  | .ok (fs, evs) =>
    (.success "Export completed successfully!" evs.length (evs.map (·.path)), fs)
  | .error (e, fs) => (.failure e.msg, fs)

/-- The number of header cells in a column range whose text is a truthy
language name. -/
def truthyHeaderCount (sh : Sheet) (cols : List Nat) : Nat :=
  (cols.filter (fun c => (headerName sh c).isSome)).length

/-- A workbook without the designated sheet. -/
def wbMissing : Workbook := ⟨[("Sheet1", ⟨[], 0⟩)]⟩

/-- A sheet with one language header and the key "k" written in two
successive data rows. -/
def shDemo : Sheet :=
  ⟨[((1, 1), ⟨some "English", .undef⟩),
    ((2, 1), ⟨some "\"k\": \"v1\"", .undef⟩),
    ((3, 1), ⟨some "\"k\": \"v2\"", .undef⟩)], 3⟩

/-- A workbook holding `shDemo` under the designated name. -/
def wbDemo : Workbook := ⟨[(sheetName, shDemo)]⟩

/-- A sheet whose translation header range names "English" twice. -/
def shDup : Sheet :=
  ⟨[((1, 1), ⟨some "English", .undef⟩),
    ((1, 2), ⟨some "English", .undef⟩)], 1⟩

/-- A workbook holding `shDup` under the designated name. -/
def wbDup : Workbook := ⟨[(sheetName, shDup)]⟩

/-- A workbook holding an entirely empty designated sheet. -/
def wbEmpty : Workbook := ⟨[(sheetName, ⟨[], 0⟩)]⟩

/-- The empty filesystem. -/
def fsEmpty : FS := ⟨[], []⟩

/-- The filesystem state after exporting `wbDemo` into `out`. -/
def fsDemo : FS :=
  ⟨[["out"], ["out"], ["out", "en"]],
   [(["out", "en", "translation.json"], "\x7b\n  \"k\": \"v2\"\n\x7d")]⟩

/-- The single file event of the `wbDemo` export. -/
def evDemo : FileEvent :=
  ⟨"English", "translation.json", ["out", "en", "translation.json"],
   "\x7b\n  \"k\": \"v2\"\n\x7d"⟩

end SST

/-! ## Theorems -/

namespace SST

theorem fold_step_eq {α β : Type} (l : List α) (f g : β → α → β) (b : β)
    (h : ∀ m c, f m c = g m c) : l.foldl f b = l.foldl g b := by
  induction l generalizing b with
  | nil => rfl
  | cons c cs ih => simp only [List.foldl_cons, h, ih]

/-- Claim C7: the Folder-Name Deriver is the pure function that
lower-cases the name, maps "italian" to "ita", and otherwise takes the
first two characters of the lower-cased name. -/
theorem c7_folderName_spec (lang : String) (_h : lang ≠ "") :
    folderName lang = folderNameSpec lang := by
  unfold folderName folderNameSpec jsSubstring
  by_cases hit : jsToLowerCase lang = "italian"
  · simp [hit]
  · simp only [hit, if_false]
    congr 1
    have h2 : List.take (min 2 (jsToLowerCase lang).data.length)
        (jsToLowerCase lang).data = List.take 2 (jsToLowerCase lang).data := by
      rw [← List.take_take, List.take_length]
    simp only [Nat.zero_min, Nat.zero_max, List.drop_zero, Nat.sub_zero]
    exact h2

theorem c7_witness :
    ("Italian" ≠ "") ∧ folderName "Italian" = folderNameSpec "Italian" :=
  ⟨by decide, c7_folderName_spec "Italian" (by decide)⟩

/-- Claim C8 (counterexample): the extractor as worded by the spec
prefers the display string whenever one exists, but the code's
`cell.w || cell.v` falls through to the raw value when the display
string is empty, so on the cell `{ w: "", v: "x" }` the code yields
"x" while the claim's reading yields "". -/
theorem c8_counterexample :
    extractText (some ⟨some "", .str "x"⟩) = some "x" ∧
    extractTextSpec (some ⟨some "", .str "x"⟩) = some "" ∧
    extractText (some ⟨some "", .str "x"⟩) ≠
      extractTextSpec (some ⟨some "", .str "x"⟩) :=
  ⟨by decide, by decide, by decide⟩

/-- Claim C8 (amended): the Cell-Text Extractor produces nothing for an
absent cell; it prefers the display string only when that string is
non-empty, otherwise falls back to the raw value; and it produces the
result only when it is a non-empty string, with no side effects. -/
theorem c8_extract_amended : ∀ cell, extractText cell = extractTextAmended cell := by
  intro cell
  rcases cell with _ | ⟨w, v⟩
  · rfl
  rcases w with _ | s
  · cases v with
    | str t => by_cases ht : t = "" <;> simp [extractText, extractTextAmended, ht]
    | num n => rfl
    | boolean b => rfl
    | undef => rfl
  · by_cases hs : s = ""
    · cases v with
      | str t => by_cases ht : t = "" <;> simp [extractText, extractTextAmended, hs, ht]
      | num n => simp [extractText, extractTextAmended, hs]
      | boolean b => simp [extractText, extractTextAmended, hs]
      | undef => simp [extractText, extractTextAmended, hs]
    · simp [extractText, extractTextAmended, hs]

/-- Claim C3: when the workbook opens but the designated sheet is
absent, the export returns the failure result carrying the sheet-lookup
message and the filesystem is left exactly as it was: no directory is
created and no file is written, because directory creation only happens
after the sheet lookup succeeds. -/
theorem c3_missing_sheet (wb : Workbook) (od : List String) (fs : FS)
    (h : lookupSheet wb sheetName = none) :
    exportTranslation (.ok wb) od fs =
      (.failure "Sheet \"json_tranlsation\" not found", fs) := by
  have hmsg : "Sheet \"" ++ sheetName ++ "\" not found" =
      "Sheet \"json_tranlsation\" not found" := by decide
  simp only [exportTranslation, exportInner, h, hmsg]

theorem c3_witness :
    lookupSheet wbMissing sheetName = none ∧
    exportTranslation (.ok wbMissing) ["out"] fsEmpty =
      (.failure "Sheet \"json_tranlsation\" not found", fsEmpty) :=
  ⟨by decide, c3_missing_sheet wbMissing ["out"] fsEmpty (by decide)⟩

/-- Claim C9: the Orchestrator never lets an error escape: for every
input it either succeeds (reporting the created files) or returns a
single failure result whose message is exactly the message of the error
the pipeline raised. -/
theorem c9_never_raises (wbr : Except JsError Workbook) (od : List String)
    (fs : FS) :
    (∃ fse evs, exportInner wbr od fs = .ok (fse, evs) ∧
       exportTranslation wbr od fs =
         (.success "Export completed successfully!" evs.length
            (evs.map (·.path)), fse)) ∨
    (∃ e fse, exportInner wbr od fs = .error (e, fse) ∧
       exportTranslation wbr od fs = (.failure e.msg, fse)) := by
  rcases h : exportInner wbr od fs with ⟨e, fse⟩ | ⟨fse, evs⟩
  · exact Or.inr ⟨e, fse, rfl, by simp [exportTranslation, h]⟩
  · exact Or.inl ⟨fse, evs, rfl, by simp [exportTranslation, h]⟩

/-- Claim C2 (counterexample): the regex value capture is greedy, so on
a cell holding two key-value pairs the code does not return the first
pair — the value runs to the last quote of the cell, absorbing the
second pair, while the claim's "terminated by the next quote" reading
returns the first pair. -/
theorem c2_counterexample :
    lineParse "\"a\": \"1\", \"b\": \"2\"" = some ("a", "1\", \"b\": \"2") ∧
    lineParseSpec "\"a\": \"1\", \"b\": \"2\"" = some ("a", "1") ∧
    lineParse "\"a\": \"1\", \"b\": \"2\"" ≠
      lineParseSpec "\"a\": \"1\", \"b\": \"2\"" :=
  ⟨by decide, by decide, by decide⟩

/-- Claim C1 (counterexample): the JSON Emitter splices values into the
object text verbatim, so a dictionary whose value holds a raw newline
produces text that is not a valid JSON document. -/
theorem c1_counterexample :
    (jsonParse (jsonStringOf [("k", "a\nb")]).data).isSome = false := by
  decide

theorem takeWhile_append_of_all {α : Type} (p : α → Bool) (k : List α) (a : α)
    (t : List α) (hk : ∀ c ∈ k, p c = true) (ha : p a = false) :
    (k ++ a :: t).takeWhile p = k := by
  induction k with
  | nil => simp [List.takeWhile_cons, ha]
  | cons c k' ih =>
    simp only [List.cons_append, List.takeWhile_cons,
      hk c (List.mem_cons_self c k'), if_true]
    rw [ih (fun c' hc' => hk c' (List.mem_cons_of_mem c hc'))]

theorem dropWhile_append_of_all {α : Type} (p : α → Bool) (k : List α) (a : α)
    (t : List α) (hk : ∀ c ∈ k, p c = true) (ha : p a = false) :
    (k ++ a :: t).dropWhile p = a :: t := by
  induction k with
  | nil => simp [List.dropWhile_cons, ha]
  | cons c k' ih =>
    simp only [List.cons_append, List.dropWhile_cons,
      hk c (List.mem_cons_self c k'), if_true]
    exact ih (fun c' hc' => hk c' (List.mem_cons_of_mem c hc'))

theorem jsSpace_colon : jsSpace ':' = false := by decide

theorem jsSpace_ne_quote {c : Char} (h : jsSpace c = true) : c ≠ '"' := by
  intro hc
  subst hc
  simp [jsSpace] at h

theorem valueCapture_none_iff (l : List Char) :
    valueCapture l = none ↔ ∀ c ∈ l, c ≠ '"' := by
  induction l with
  | nil => simp [valueCapture]
  | cons c rest ih =>
    cases hr : valueCapture rest with
    | some v =>
      simp only [valueCapture, hr]
      constructor
      · intro h; exact absurd h (by simp)
      · intro h
        have : ∀ c' ∈ rest, c' ≠ '"' := fun c' hc' => h c' (List.mem_cons_of_mem c hc')
        rw [← ih] at this
        rw [this] at hr
        exact absurd hr (by simp)
    | none =>
      simp only [valueCapture, hr]
      by_cases hc : c = '"'
      · subst hc
        simp
      · simp only [hc, if_false]
        constructor
        · intro _ c' hc'
          rcases List.mem_cons.1 hc' with h' | h'
          · rw [h']; exact hc
          · exact (ih.1 hr) c' h'
        · intro _; trivial

theorem parseFrom_head_ne (c : Char) (rest : List Char) (h : c ≠ '"') :
    parseFrom (c :: rest) = none := by
  simp [parseFrom, h]

theorem matchKV_cons_of_none (c : Char) (rest : List Char)
    (h : parseFrom (c :: rest) = none) : matchKV (c :: rest) = matchKV rest := by
  simp only [matchKV, h]

theorem matchKV_no_quote : ∀ (s : List Char), (∀ c ∈ s, c ≠ '"') →
    matchKV s = none := by
  intro s
  induction s with
  | nil => intro _; rfl
  | cons c rest ih =>
    intro h
    rw [matchKV_cons_of_none c rest
      (parseFrom_head_ne c rest (h c (List.mem_cons_self c rest)))]
    exact ih (fun c' hc' => h c' (List.mem_cons_of_mem c hc'))

theorem matchKV_skip : ∀ (pre t : List Char), (∀ c ∈ pre, c ≠ '"') →
    matchKV (pre ++ t) = matchKV t := by
  intro pre
  induction pre with
  | nil => intro t _; rfl
  | cons c pre' ih =>
    intro t h
    rw [List.cons_append, matchKV_cons_of_none c (pre' ++ t)
      (parseFrom_head_ne c _ (h c (List.mem_cons_self c pre')))]
    exact ih t (fun c' hc' => h c' (List.mem_cons_of_mem c hc'))

theorem parseColonValue_pattern (key w2 rest : List Char) (w1 : List Char)
    (h1 : ∀ c ∈ w1, jsSpace c = true) (h2 : ∀ c ∈ w2, jsSpace c = true) :
    parseColonValue key (w1 ++ ':' :: (w2 ++ '"' :: rest)) =
      (valueCapture rest).map (fun v => (key, v)) := by
  have hws1 : (w1 ++ ':' :: (w2 ++ '"' :: rest)).dropWhile jsSpace =
      ':' :: (w2 ++ '"' :: rest) :=
    dropWhile_append_of_all _ w1 ':' _ h1 jsSpace_colon
  have hws2 : (w2 ++ '"' :: rest).dropWhile jsSpace = '"' :: rest :=
    dropWhile_append_of_all _ w2 '"' _ h2 (by decide)
  simp only [parseColonValue, hws1, hws2]
  simp

theorem parseColonValue_noquote (key l : List Char)
    (hl : ∀ c ∈ l, c ≠ '"') : parseColonValue key l = none := by
  simp only [parseColonValue]
  split
  · rename_i rest5 heq
    have hsub5 : rest5.Sublist l := by
      have h' : (':' :: rest5).Sublist l := by
        rw [← heq]; exact List.dropWhile_sublist jsSpace
      exact List.Sublist.trans (List.sublist_cons_self ':' rest5) h'
    split
    · rename_i q2 rest7 heq2
      have hq2 : q2 ∈ l := by
        apply hsub5.subset
        exact (List.dropWhile_sublist jsSpace).subset
          (by rw [heq2]; exact List.mem_cons_self q2 rest7)
      rw [if_neg (hl q2 hq2)]
    · rfl
  · rfl

theorem parseFrom_pattern (k w1 w2 rest : List Char) (hk : k ≠ [])
    (hkq : ∀ c ∈ k, c ≠ '"') (h1 : ∀ c ∈ w1, jsSpace c = true)
    (h2 : ∀ c ∈ w2, jsSpace c = true) :
    parseFrom ('"' :: (k ++ '"' :: (w1 ++ ':' :: (w2 ++ '"' :: rest)))) =
      (valueCapture rest).map (fun v => (k, v)) := by
  have hkey : (k ++ '"' :: (w1 ++ ':' :: (w2 ++ '"' :: rest))).takeWhile
      (fun x => x ≠ '"') = k :=
    takeWhile_append_of_all _ k '"' _
      (fun c hc => by simpa using hkq c hc) (by simp)
  have hdrop : (k ++ '"' :: (w1 ++ ':' :: (w2 ++ '"' :: rest))).dropWhile
      (fun x => x ≠ '"') = '"' :: (w1 ++ ':' :: (w2 ++ '"' :: rest)) :=
    dropWhile_append_of_all _ k '"' _
      (fun c hc => by simpa using hkq c hc) (by simp)
  simp only [parseFrom, hkey, hdrop, if_neg hk, if_pos rfl]
  exact parseColonValue_pattern k w2 rest w1 h1 h2

theorem parseFrom_at_close (w1 w2 rest : List Char)
    (h1 : ∀ c ∈ w1, jsSpace c = true) (h2 : ∀ c ∈ w2, jsSpace c = true)
    (hr : ∀ c ∈ rest, c ≠ '"') :
    parseFrom ('"' :: (w1 ++ ':' :: (w2 ++ '"' :: rest))) = none := by
  have hassoc : w1 ++ ':' :: (w2 ++ '"' :: rest) =
      (w1 ++ ':' :: w2) ++ '"' :: rest := by
    simp [List.append_assoc]
  have hallnq : ∀ c ∈ w1 ++ ':' :: w2, (fun x => decide (x ≠ '"')) c = true := by
    intro c hc
    rcases List.mem_append.1 hc with h' | h'
    · simpa using jsSpace_ne_quote (h1 c h')
    · rcases List.mem_cons.1 h' with h'' | h''
      · rw [h'']; decide
      · simpa using jsSpace_ne_quote (h2 c h'')
  have hkey : (w1 ++ ':' :: (w2 ++ '"' :: rest)).takeWhile
      (fun x => x ≠ '"') = w1 ++ ':' :: w2 := by
    rw [hassoc]
    exact takeWhile_append_of_all _ _ '"' _ hallnq (by simp)
  have hdrop : (w1 ++ ':' :: (w2 ++ '"' :: rest)).dropWhile
      (fun x => x ≠ '"') = '"' :: rest := by
    rw [hassoc]
    exact dropWhile_append_of_all _ _ '"' _ hallnq (by simp)
  have hne : w1 ++ ':' :: w2 ≠ [] := by simp
  simp only [parseFrom, hkey, hdrop, if_neg hne, if_pos rfl]
  exact parseColonValue_noquote _ rest hr

theorem parseFrom_open_noquote (rest : List Char)
    (hr : ∀ c ∈ rest, c ≠ '"') : parseFrom ('"' :: rest) = none := by
  have hd : rest.dropWhile (fun x => x ≠ '"') = [] := by
    rw [List.dropWhile_eq_nil_iff]
    intro c hc
    simpa using hr c hc
  simp only [parseFrom, hd, if_pos rfl, ite_self]

theorem matchKV_tail_none (k w1 w2 rest : List Char)
    (hkq : ∀ c ∈ k, c ≠ '"') (h1 : ∀ c ∈ w1, jsSpace c = true)
    (h2 : ∀ c ∈ w2, jsSpace c = true) (hr : ∀ c ∈ rest, c ≠ '"') :
    matchKV (k ++ '"' :: (w1 ++ ':' :: (w2 ++ '"' :: rest))) = none := by
  rw [matchKV_skip k _ hkq]
  rw [matchKV_cons_of_none _ _ (parseFrom_at_close w1 w2 rest h1 h2 hr)]
  rw [matchKV_skip w1 _ (fun c hc => jsSpace_ne_quote (h1 c hc))]
  rw [matchKV_cons_of_none _ _ (parseFrom_head_ne _ _ (by decide))]
  rw [matchKV_skip w2 _ (fun c hc => jsSpace_ne_quote (h2 c hc))]
  rw [matchKV_cons_of_none _ _ (parseFrom_open_noquote rest hr)]
  exact matchKV_no_quote rest hr

/-- Claim C2 (amended): the Key-Value Line Parser returns the leftmost
occurrence of a quoted non-empty non-quote key, a colon with optional
whitespace on both sides, and an opening quote; the value capture is
greedy, extending to the last quote of the remaining text (so several
key-value pairs in one cell collapse into the first key with a value
that absorbs the rest); when the input holds no quote at all there is
no match. -/
theorem c2_amended_greedy :
    (∀ (pre k w1 w2 rest : List Char),
        (∀ c ∈ pre, c ≠ '"') → k ≠ [] → (∀ c ∈ k, c ≠ '"') →
        (∀ c ∈ w1, jsSpace c = true) → (∀ c ∈ w2, jsSpace c = true) →
        matchKV (pre ++ '"' :: (k ++ '"' :: (w1 ++ ':' :: (w2 ++ '"' :: rest)))) =
          (valueCapture rest).map (fun v => (k, v))) ∧
    (∀ s : List Char, (∀ c ∈ s, c ≠ '"') → matchKV s = none) := by
  constructor
  · intro pre k w1 w2 rest hpre hk hkq h1 h2
    rw [matchKV_skip pre _ hpre]
    cases hv : valueCapture rest with
    | some v =>
      have hp := parseFrom_pattern k w1 w2 rest hk hkq h1 h2
      rw [hv] at hp
      simp only [matchKV, hp, Option.map_some']
    | none =>
      have hp := parseFrom_pattern k w1 w2 rest hk hkq h1 h2
      rw [hv] at hp
      rw [matchKV_cons_of_none _ _ hp]
      rw [matchKV_tail_none k w1 w2 rest hkq h1 h2
        ((valueCapture_none_iff rest).1 hv)]
      rfl
  · exact matchKV_no_quote

theorem c2_amended_witness :
    matchKV ([] ++ '"' :: (['k'] ++ '"' :: ([] ++ ':' :: ([' '] ++ '"' :: ['v', '"'])))) =
      (valueCapture ['v', '"']).map (fun v => (['k'], v)) ∧
    matchKV ['n', 'o'] = none :=
  ⟨c2_amended_greedy.1 [] ['k'] [] [' '] ['v', '"'] (by simp) (by decide)
      (by decide) (by simp) (by decide),
   c2_amended_greedy.2 ['n', 'o'] (by decide)⟩

theorem dLookup_dUpsert (d : List (String × String)) (k v key : String) :
    dLookup (dUpsert d k v) key = if key = k then some v else dLookup d key := by
  induction d with
  | nil =>
    by_cases h : k = key
    · simp [dUpsert, dLookup, h]
    · simp only [dUpsert, dLookup]
      rw [if_neg h, if_neg (fun hh : key = k => h hh.symm)]
  | cons kv d' ih =>
    simp only [dUpsert]
    by_cases h1 : kv.1 = k
    · simp only [if_pos h1, dLookup]
      by_cases h2 : k = key
      · simp [h2]
      · rw [if_neg h2, if_neg (fun hh : key = k => h2 hh.symm),
          if_neg (fun hh : kv.1 = key => h2 (h1.symm.trans hh))]
    · simp only [if_neg h1, dLookup]
      by_cases h3 : kv.1 = key
      · have hkk : ¬ key = k := fun hh => h1 (h3.trans hh)
        simp [h3, hkk]
      · simp [h3, ih]

theorem mLookup_mWrite (m : LangMap) (n k v name : String) :
    mLookup (mWrite m n k v) name =
      if name = n then some (dUpsert ((mLookup m n).getD []) k v)
      else mLookup m name := by
  induction m with
  | nil =>
    by_cases h : n = name
    · simp [mWrite, mLookup, h]
    · simp only [mWrite, mLookup]
      rw [if_neg h, if_neg (fun hh : name = n => h hh.symm)]
  | cons e m' ih =>
    simp only [mWrite]
    by_cases h1 : e.1 = n
    · simp only [if_pos h1, mLookup]
      by_cases h2 : n = name
      · simp [← h2, h1]
      · rw [if_neg (fun hh : e.1 = name => h2 (h1.symm.trans hh)),
          if_neg (fun hh : name = n => h2 hh.symm),
          if_neg (fun hh : e.1 = name => h2 (h1.symm.trans hh))]
    · simp only [if_neg h1, mLookup]
      by_cases h3 : e.1 = name
      · have hnn : ¬ name = n := fun hh => h1 (h3.trans hh)
        simp [h3, hnn]
      · simp [h3, ih, mLookup]

theorem applyWrites_nil (o : Option (List (String × String))) :
    applyWrites o [] = o := by
  cases o <;> rfl

theorem applyWrites_cons (o : Option (List (String × String)))
    (w : String × String) (ws : List (String × String)) :
    applyWrites o (w :: ws) =
      applyWrites (some (dUpsert (o.getD []) w.1 w.2)) ws := by
  cases o <;> rfl

theorem mLookup_foldl_write :
    ∀ (acts : List (String × String × String)) (m : LangMap) (name : String),
      mLookup (acts.foldl (fun m a => mWrite m a.1 a.2.1 a.2.2) m) name =
        applyWrites (mLookup m name)
          (acts.filterMap (fun a => if a.1 = name then some a.2 else none)) := by
  intro acts
  induction acts with
  | nil => intro m name; simp [applyWrites_nil]
  | cons a acts' ih =>
    intro m name
    by_cases ha : a.1 = name
    · have hsel : List.filterMap (fun x => if x.1 = name then some x.2 else none)
          (a :: acts') =
          a.2 :: List.filterMap (fun x => if x.1 = name then some x.2 else none)
            acts' := by
        simp [List.filterMap_cons, ha]
      rw [List.foldl_cons, ih, mLookup_mWrite,
        if_pos (show name = a.1 from ha.symm), hsel, applyWrites_cons, ha]
    · have hsel : List.filterMap (fun x => if x.1 = name then some x.2 else none)
          (a :: acts') =
          List.filterMap (fun x => if x.1 = name then some x.2 else none)
            acts' := by
        simp [List.filterMap_cons, ha]
      rw [List.foldl_cons, ih, mLookup_mWrite,
        if_neg (fun hh : name = a.1 => ha hh.symm), hsel]

theorem dLookup_foldl_upsert :
    ∀ (ws : List (String × String)) (d0 : List (String × String)) (k : String),
      dLookup (ws.foldl (fun d kv => dUpsert d kv.1 kv.2) d0) k =
        match ws.reverse.find? (fun kv => kv.1 = k) with
        | some kv => some kv.2
        | none => dLookup d0 k := by
  intro ws
  induction ws with
  | nil => intro d0 k; rfl
  | cons w ws' ih =>
    intro d0 k
    simp only [List.foldl_cons, List.reverse_cons, List.find?_append]
    rw [ih]
    cases hf : ws'.reverse.find? (fun kv => kv.1 = k) with
    | some kv => simp
    | none =>
      simp only [Option.none_or]
      by_cases hw : w.1 = k
      · have hone : List.find? (fun kv => kv.1 = k) [w] = some w := by
          simp [List.find?, hw]
        rw [hone, dLookup_dUpsert, if_pos hw.symm]
      · have hone : List.find? (fun kv => kv.1 = k) [w] = none := by
          simp [List.find?, hw]
        rw [hone, dLookup_dUpsert,
          if_neg (fun hh : k = w.1 => hw hh.symm)]

theorem processCell_eq (sh : Sheet) (m : LangMap) (row col : Nat) :
    processCell sh m row col = mWriteAct m (actionAt sh row col) := by
  rcases hh : headerName sh col with _ | name
  · simp [processCell, actionAt, mWriteAct, hh]
  rcases he : extractText (getCell sh row col) with _ | s
  · simp [processCell, actionAt, mWriteAct, hh, he]
  rcases hl : lineParse s with _ | kv
  · simp [processCell, actionAt, mWriteAct, hh, he, hl]
  · simp [processCell, actionAt, mWriteAct, hh, he, hl]

theorem foldl_pair {α β γ : Type} (l : List γ) (f : α → γ → α) (g : β → γ → β) :
    ∀ (a : α) (b : β),
      l.foldl (fun p r => (f p.1 r, g p.2 r)) (a, b) = (l.foldl f a, l.foldl g b) := by
  induction l with
  | nil => intro a b; rfl
  | cons c l' ih => intro a b; simp only [List.foldl_cons]; exact ih (f a c) (g b c)

theorem foldl_writeAct (cols : List Nat) (gf : Nat → Option (String × String × String)) :
    ∀ (m : LangMap),
      cols.foldl (fun m c => mWriteAct m (gf c)) m =
        (cols.filterMap gf).foldl (fun m a => mWrite m a.1 a.2.1 a.2.2) m := by
  induction cols with
  | nil => intro m; rfl
  | cons c cols' ih =>
    intro m
    simp only [List.foldl_cons, List.filterMap_cons]
    cases h : gf c with
    | none =>
      show List.foldl (fun m c => mWriteAct m (gf c)) m cols' =
        List.foldl (fun m a => mWrite m a.1 a.2.1 a.2.2) m
          (List.filterMap gf cols')
      exact ih m
    | some a =>
      show List.foldl (fun m c => mWriteAct m (gf c))
          (mWrite m a.1 a.2.1 a.2.2) cols' =
        List.foldl (fun m a => mWrite m a.1 a.2.1 a.2.2)
          (mWrite m a.1 a.2.1 a.2.2) (List.filterMap gf cols')
      exact ih (mWrite m a.1 a.2.1 a.2.2)

theorem processRow_eq (sh : Sheet) (cols : List Nat) (m : LangMap) (row : Nat) :
    processRow sh cols m row =
      (cols.filterMap (actionAt sh row)).foldl
        (fun m a => mWrite m a.1 a.2.1 a.2.2) m := by
  unfold processRow
  rw [fold_step_eq cols _ (fun m c => mWriteAct m (actionAt sh row c)) m
    (fun m c => processCell_eq sh m row c)]
  exact foldl_writeAct cols (actionAt sh row) m

theorem foldl_rows (sh : Sheet) (cols : List Nat) :
    ∀ (rows : List Nat) (m : LangMap),
      rows.foldl (fun m r => processRow sh cols m r) m =
        (catLists (rows.map (fun r => cols.filterMap (actionAt sh r)))).foldl
          (fun m a => mWrite m a.1 a.2.1 a.2.2) m := by
  intro rows
  induction rows with
  | nil => intro m; rfl
  | cons r rows' ih =>
    intro m
    simp only [List.foldl_cons, List.map_cons, catLists, List.foldl_append]
    rw [processRow_eq, ih]

theorem accumulate_eq (sh : Sheet) :
    accumulate sh =
      ((scanActions sh transCols).foldl (fun m a => mWrite m a.1 a.2.1 a.2.2)
          (initLangs sh transCols),
       (scanActions sh eulaCols).foldl (fun m a => mWrite m a.1 a.2.1 a.2.2)
          (initLangs sh eulaCols)) := by
  unfold accumulate scanActions
  rw [foldl_pair]
  rw [foldl_rows, foldl_rows]

theorem mAssign_values (m : LangMap) (n : String)
    (hm : ∀ e ∈ m, e.2 = ([] : List (String × String))) :
    ∀ e ∈ mAssign m n [], e.2 = ([] : List (String × String)) := by
  induction m with
  | nil =>
    intro e he
    simp only [mAssign] at he
    rcases List.mem_singleton.1 he with rfl
    rfl
  | cons e' m' ih =>
    intro e he
    simp only [mAssign] at he
    by_cases h1 : e'.1 = n
    · rw [if_pos h1] at he
      rcases List.mem_cons.1 he with rfl | h'
      · rfl
      · exact hm e (List.mem_cons_of_mem e' h')
    · rw [if_neg h1] at he
      rcases List.mem_cons.1 he with rfl | h'
      · exact hm _ (List.mem_cons_self _ m')
      · exact ih (fun x hx => hm x (List.mem_cons_of_mem _ hx)) e h'

theorem initLangs_values (sh : Sheet) (cols : List Nat) :
    ∀ e ∈ initLangs sh cols, e.2 = ([] : List (String × String)) := by
  unfold initLangs
  have main : ∀ (cs : List Nat) (m : LangMap),
      (∀ e ∈ m, e.2 = ([] : List (String × String))) →
      ∀ e ∈ cs.foldl
          (fun m c =>
            match headerName sh c with
            | some n => mAssign m n []
            | none => m) m,
        e.2 = ([] : List (String × String)) := by
    intro cs
    induction cs with
    | nil => intro m hm; exact hm
    | cons c cs' ih =>
      intro m hm
      simp only [List.foldl_cons]
      cases headerName sh c with
      | none => exact ih m hm
      | some n => exact ih (mAssign m n []) (mAssign_values m n hm)
  exact main cols [] (by intro e he; cases he)

theorem mLookup_some_mem (m : LangMap) (name : String)
    (d : List (String × String)) (h : mLookup m name = some d) :
    ∃ e ∈ m, e.2 = d := by
  induction m with
  | nil => cases h
  | cons e m' ih =>
    simp only [mLookup] at h
    by_cases h1 : e.1 = name
    · rw [if_pos h1] at h
      exact ⟨e, List.mem_cons_self e m', Option.some.inj h⟩
    · rw [if_neg h1] at h
      rcases ih h with ⟨e', he', hd⟩
      exact ⟨e', List.mem_cons_of_mem e he', hd⟩

/-- Claim C5: within each category, a language dictionary's entry for a
key is exactly the value of the last successful parse for that key in
the top-to-bottom (and left-to-right within a row) scan of the data
rows: later rows overwrite earlier ones. -/
theorem c5_last_write_wins (sh : Sheet) (name k : String) :
    (∀ d, mLookup (accumulate sh).1 name = some d →
        dLookup d k =
          ((writesFor sh transCols name).reverse.find?
              (fun kv => kv.1 = k)).map (·.2)) ∧
    (∀ d, mLookup (accumulate sh).2 name = some d →
        dLookup d k =
          ((writesFor sh eulaCols name).reverse.find?
              (fun kv => kv.1 = k)).map (·.2)) := by
  have main : ∀ (cols : List Nat) (d : List (String × String)),
      mLookup ((scanActions sh cols).foldl
          (fun m a => mWrite m a.1 a.2.1 a.2.2) (initLangs sh cols)) name =
        some d →
      dLookup d k =
        ((writesFor sh cols name).reverse.find? (fun kv => kv.1 = k)).map (·.2) := by
    intro cols d hd
    rw [mLookup_foldl_write] at hd
    have hws : (scanActions sh cols).filterMap
        (fun a => if a.1 = name then some a.2 else none) =
        writesFor sh cols name := rfl
    rw [hws] at hd
    have hfold : d = (writesFor sh cols name).foldl
        (fun d kv => dUpsert d kv.1 kv.2) [] := by
      cases hinit : mLookup (initLangs sh cols) name with
      | some d0 =>
        have hd0 : d0 = [] := by
          rcases mLookup_some_mem _ _ _ hinit with ⟨e, he, hd0⟩
          rw [← hd0]
          exact initLangs_values sh cols e he
        rw [hinit, hd0] at hd
        cases hw : writesFor sh cols name with
        | nil => rw [hw] at hd; exact (Option.some.inj hd).symm
        | cons w ws' => rw [hw] at hd; exact (Option.some.inj hd).symm
      | none =>
        rw [hinit] at hd
        cases hw : writesFor sh cols name with
        | nil => rw [hw] at hd; cases hd
        | cons w ws' =>
          rw [hw] at hd
          simp only [applyWrites] at hd
          rw [← Option.some.inj hd]
          rfl
    rw [hfold, dLookup_foldl_upsert]
    cases (writesFor sh cols name).reverse.find? (fun kv => kv.1 = k) with
    | some kv => rfl
    | none => rfl
  constructor
  · intro d hd
    rw [accumulate_eq] at hd
    exact main transCols d hd
  · intro d hd
    rw [accumulate_eq] at hd
    exact main eulaCols d hd

theorem c5_witness :
    mLookup (accumulate shDemo).1 "English" = some [("k", "v2")] ∧
    dLookup [("k", "v2")] "k" =
      ((writesFor shDemo transCols "English").reverse.find?
          (fun kv => kv.1 = "k")).map (·.2) :=
  ⟨by decide, (c5_last_write_wins shDemo "English" "k").1 [("k", "v2")] (by decide)⟩

theorem mKeys_mAssign (m : LangMap) (n : String) (d : List (String × String)) :
    mKeys (mAssign m n d) =
      if n ∈ mKeys m then mKeys m else mKeys m ++ [n] := by
  induction m with
  | nil => simp [mAssign, mKeys]
  | cons e m' ih =>
    simp only [mAssign]
    by_cases h1 : e.1 = n
    · rw [if_pos h1]
      simp [mKeys, h1]
    · rw [if_neg h1]
      have hne : ¬ n = e.1 := fun hh => h1 hh.symm
      simp only [mKeys] at ih ⊢
      simp only [List.map_cons, List.mem_cons, hne, false_or]
      rw [ih]
      by_cases h2 : n ∈ List.map (fun e => e.1) m'
      · simp [h2]
      · simp [h2]

theorem mKeys_mWrite (m : LangMap) (n k v : String) :
    mKeys (mWrite m n k v) =
      if n ∈ mKeys m then mKeys m else mKeys m ++ [n] := by
  induction m with
  | nil => simp [mWrite, mKeys]
  | cons e m' ih =>
    simp only [mWrite]
    by_cases h1 : e.1 = n
    · rw [if_pos h1]
      simp [mKeys, h1]
    · rw [if_neg h1]
      have hne : ¬ n = e.1 := fun hh => h1 hh.symm
      simp only [mKeys] at ih ⊢
      simp only [List.map_cons, List.mem_cons, hne, false_or]
      rw [ih]
      by_cases h2 : n ∈ List.map (fun e => e.1) m'
      · simp [h2]
      · simp [h2]

theorem mem_mKeys_mAssign (m : LangMap) (n name : String)
    (d : List (String × String)) :
    name ∈ mKeys (mAssign m n d) ↔ name = n ∨ name ∈ mKeys m := by
  rw [mKeys_mAssign]
  by_cases h : n ∈ mKeys m
  · rw [if_pos h]
    constructor
    · intro h'; exact Or.inr h'
    · intro h'
      rcases h' with h' | h'
      · rw [h']; exact h
      · exact h'
  · rw [if_neg h]
    simp [List.mem_append, or_comm]

theorem mKeys_foldl_write (acts : List (String × String × String)) :
    ∀ (m : LangMap), (∀ a ∈ acts, a.1 ∈ mKeys m) →
      mKeys (acts.foldl (fun m a => mWrite m a.1 a.2.1 a.2.2) m) = mKeys m := by
  induction acts with
  | nil => intro m _; rfl
  | cons a acts' ih =>
    intro m hmem
    rw [List.foldl_cons]
    have hkeys : mKeys (mWrite m a.1 a.2.1 a.2.2) = mKeys m := by
      rw [mKeys_mWrite, if_pos (hmem a (List.mem_cons_self a acts'))]
    rw [ih (mWrite m a.1 a.2.1 a.2.2)
      (fun x hx => hkeys ▸ hmem x (List.mem_cons_of_mem a hx)), hkeys]

theorem mem_catLists {α : Type} (x : α) :
    ∀ (ls : List (List α)), x ∈ catLists ls ↔ ∃ l ∈ ls, x ∈ l := by
  intro ls
  induction ls with
  | nil => simp [catLists]
  | cons l ls' ih => simp [catLists, List.mem_append, ih]

theorem actionAt_name (sh : Sheet) (r c : Nat) (a : String × String × String)
    (h : actionAt sh r c = some a) : headerName sh c = some a.1 := by
  unfold actionAt at h
  cases hh : headerName sh c with
  | none => rw [hh] at h; cases h
  | some name =>
    rw [hh] at h
    cases hx : (extractText (getCell sh r c)).bind (fun s => lineParse s) with
    | none => rw [hx] at h; cases h
    | some kv =>
      rw [hx] at h
      simp only [Option.map_some'] at h
      rw [← Option.some.inj h]

theorem scanActions_names (sh : Sheet) (cols : List Nat)
    (a : String × String × String) (ha : a ∈ scanActions sh cols) :
    ∃ c ∈ cols, headerName sh c = some a.1 := by
  unfold scanActions at ha
  rcases (mem_catLists a _).1 ha with ⟨l, hl, hal⟩
  rcases List.mem_map.1 hl with ⟨r, _, rfl⟩
  rcases List.mem_filterMap.1 hal with ⟨c, hc, hac⟩
  exact ⟨c, hc, actionAt_name sh r c a hac⟩

theorem initKeys_mem (sh : Sheet) (cols : List Nat) (name : String) :
    name ∈ mKeys (initLangs sh cols) ↔
      ∃ c ∈ cols, headerName sh c = some name := by
  unfold initLangs
  have main : ∀ (cs : List Nat) (m : LangMap),
      name ∈ mKeys (cs.foldl
        (fun m c =>
          match headerName sh c with
          | some n => mAssign m n []
          | none => m) m) ↔
        name ∈ mKeys m ∨ ∃ c ∈ cs, headerName sh c = some name := by
    intro cs
    induction cs with
    | nil => intro m; simp
    | cons c cs' ih =>
      intro m
      rw [List.foldl_cons]
      cases hh : headerName sh c with
      | none =>
        rw [ih]
        simp [hh]
      | some n =>
        rw [ih, mem_mKeys_mAssign]
        simp only [List.mem_cons, hh]
        constructor
        · rintro (⟨h' | h'⟩ | ⟨c', hc', hn'⟩)
          · exact Or.inr ⟨c, Or.inl rfl, by rw [hh, h']⟩
          · exact Or.inl h'
          · exact Or.inr ⟨c', Or.inr hc', hn'⟩
        · rintro (h' | ⟨c', hc' | hc', hn'⟩)
          · exact Or.inl (Or.inr h')
          · rw [hc', hh] at hn'
            exact Or.inl (Or.inl (Option.some.inj hn').symm)
          · exact Or.inr ⟨c', hc', hn'⟩
  rw [main cols []]
  simp [mKeys]

theorem initKeys_nodup (sh : Sheet) (cols : List Nat) :
    (mKeys (initLangs sh cols)).Nodup := by
  unfold initLangs
  have main : ∀ (cs : List Nat) (m : LangMap), (mKeys m).Nodup →
      (mKeys (cs.foldl
        (fun m c =>
          match headerName sh c with
          | some n => mAssign m n []
          | none => m) m)).Nodup := by
    intro cs
    induction cs with
    | nil => intro m hm; exact hm
    | cons c cs' ih =>
      intro m hm
      rw [List.foldl_cons]
      cases hh : headerName sh c with
      | none => exact ih m hm
      | some n =>
        apply ih
        rw [mKeys_mAssign]
        by_cases h : n ∈ mKeys m
        · rw [if_pos h]; exact hm
        · rw [if_neg h]
          simp [List.nodup_append, hm, h]
  exact main cols [] (by simp [mKeys])

theorem mem_mKeys (m : LangMap) (name : String) :
    name ∈ mKeys m ↔ ∃ e ∈ m, e.1 = name := by
  simp [mKeys, List.mem_map]

theorem mem_keys_lookup (m : LangMap) (name : String) (h : name ∈ mKeys m) :
    ∃ d, mLookup m name = some d := by
  induction m with
  | nil => simp [mKeys] at h
  | cons e m' ih =>
    by_cases h1 : e.1 = name
    · exact ⟨e.2, by simp [mLookup, h1]⟩
    · simp only [mKeys, List.map_cons, List.mem_cons] at h
      rcases h with h | h
      · exact absurd h.symm h1
      · rcases ih h with ⟨d, hd⟩
        exact ⟨d, by simp [mLookup, h1, hd]⟩

theorem filter_keys (name : String) :
    ∀ (m : LangMap) (d : List (String × String)), (mKeys m).Nodup →
      mLookup m name = some d →
      m.filter (fun e => e.1 = name) = [(name, d)] := by
  intro m
  induction m with
  | nil => intro d _ hl; cases hl
  | cons e m' ih =>
    intro d hnd hl
    obtain ⟨e1, e2⟩ := e
    have hnd' : (mKeys m').Nodup := by
      simp only [mKeys, List.map_cons, List.nodup_cons] at hnd
      exact hnd.2
    have hnotin : e1 ∉ mKeys m' := by
      simp only [mKeys, List.map_cons, List.nodup_cons] at hnd
      exact hnd.1
    simp only [mLookup] at hl
    by_cases h1 : e1 = name
    · rw [if_pos h1] at hl
      have hd : e2 = d := Option.some.inj hl
      have hfil : m'.filter (fun e => e.1 = name) = [] := by
        rw [List.filter_eq_nil_iff]
        intro x hx hpx
        apply hnotin
        rw [mem_mKeys]
        exact ⟨x, hx, by rw [of_decide_eq_true hpx, h1]⟩
      rw [List.filter_cons]
      simp [h1, hd, hfil]
    · rw [if_neg h1] at hl
      rw [List.filter_cons]
      simp [h1, ih d hnd' hl]

theorem filter_keys_none (m : LangMap) (name : String)
    (hnm : name ∉ mKeys m) : m.filter (fun e => e.1 = name) = [] := by
  rw [List.filter_eq_nil_iff]
  intro e he hpe
  apply hnm
  rw [mem_mKeys]
  exact ⟨e, he, of_decide_eq_true hpe⟩

theorem insertBy_perm {α : Type} (le : α → α → Bool) (a : α) :
    ∀ (l : List α), (insertBy le a l).Perm (a :: l) := by
  intro l
  induction l with
  | nil => exact List.Perm.refl _
  | cons b l' ih =>
    simp only [insertBy]
    by_cases h : le a b
    · rw [if_pos h]
    · rw [if_neg h]
      exact (ih.cons b).trans (List.Perm.swap a b l')

theorem sortBy_perm {α : Type} (le : α → α → Bool) :
    ∀ (l : List α), (sortBy le l).Perm l := by
  intro l
  induction l with
  | nil => exact List.Perm.refl _
  | cons a l' ih =>
    exact (insertBy_perm le a (sortBy le l')).trans (ih.cons a)

theorem jsEntries_perm {α : Type} (l : List (String × α)) :
    (jsEntries l).Perm l := by
  unfold jsEntries
  exact ((sortBy_perm _ _).append (List.Perm.refl _)).trans
    (List.filter_append_perm _ l)

theorem prettierFormat_ok (s c : String) (h : prettierFormat s = .ok c) :
    c = s := by
  unfold prettierFormat at h
  split at h
  · exact (Except.ok.inj h).symm
  · cases h

theorem emitAll_ok_events (fname : String) (od : List String) :
    ∀ (entries : List (String × List (String × String))) (fs : FS)
      (evs : List FileEvent) (fse : FS) (evse : List FileEvent),
      emitAll fname entries od fs evs = .ok (fse, evse) →
      evse = evs ++ entries.map (mkEvent fname od) := by
  intro entries
  induction entries with
  | nil =>
    intro fs evs fse evse h
    simp only [emitAll] at h
    injection h with h1
    injection h1 with h2 h3
    rw [List.map_nil, List.append_nil, ← h3]
  | cons e rest ih =>
    intro fs evs fse evse h
    obtain ⟨lang, dict⟩ := e
    simp only [emitAll] at h
    split at h
    · cases h
    · rename_i content heq
      have hc : content = jsonStringOf dict := prettierFormat_ok _ _ heq
      rw [ih _ _ _ _ h, hc]
      simp [mkEvent, List.append_assoc]

theorem keys_accumulate (sh : Sheet) :
    mKeys (accumulate sh).1 = mKeys (initLangs sh transCols) ∧
    mKeys (accumulate sh).2 = mKeys (initLangs sh eulaCols) := by
  rw [accumulate_eq]
  constructor
  · apply mKeys_foldl_write
    intro a ha
    rcases scanActions_names sh transCols a ha with ⟨c, hc, hn⟩
    exact (initKeys_mem sh transCols a.1).2 ⟨c, hc, hn⟩
  · apply mKeys_foldl_write
    intro a ha
    rcases scanActions_names sh eulaCols a ha with ⟨c, hc, hn⟩
    exact (initKeys_mem sh eulaCols a.1).2 ⟨c, hc, hn⟩

theorem exportInner_ok_events (wb : Workbook) (sh : Sheet) (od : List String)
    (fs0 fse : FS) (evs : List FileEvent)
    (hsh : lookupSheet wb sheetName = some sh)
    (hok : exportInner (.ok wb) od fs0 = .ok (fse, evs)) :
    evs = (jsEntries (accumulate sh).1).map (mkEvent "translation.json" od) ++
      (jsEntries (accumulate sh).2).map (mkEvent "eula.json" od) := by
  simp only [exportInner, hsh] at hok
  split at hok
  · cases hok
  · split at hok
    · cases hok
    · rename_i fs2 evs1 heq2
      split at hok
      · cases hok
      · rename_i fs3 evs2 heq3
        injection hok with h1
        injection h1 with h2 h3
        rw [← h3, emitAll_ok_events _ _ _ _ _ _ _ heq3,
          emitAll_ok_events _ _ _ _ _ _ _ heq2]
        simp

theorem headerName_of_text (sh : Sheet) (c : Nat) (name : String)
    (hv : headerVal sh c = .str name) (hne : name ≠ "") :
    headerName sh c = some name := by
  unfold headerName
  rw [hv]
  simp [truthy, jsToString, hne]

theorem count_one_of_nodup_mem {l : List String} {a : String}
    (hnd : l.Nodup) (hmem : a ∈ l) : l.count a = 1 := by
  have h1 : l.count a ≤ 1 := List.nodup_iff_count_le_one.1 hnd a
  have h2 : 0 < l.count a := List.count_pos_iff.2 hmem
  omega

/-- Claim C6: on a successful export, every language name appearing as
non-empty header text in a column range yields exactly one dictionary
for that category and exactly one file-write event, at
`outputDir/<slug>/translation.json` (or `eula.json`), even when the
dictionary is empty; names not appearing as a truthy header in the
range yield no dictionary and no file. -/
theorem c6_one_file_per_language (wb : Workbook) (sh : Sheet)
    (od : List String) (fs0 fse : FS) (evs : List FileEvent)
    (hsh : lookupSheet wb sheetName = some sh)
    (hok : exportInner (.ok wb) od fs0 = .ok (fse, evs)) :
    (∀ name c, c ∈ transCols → headerVal sh c = .str name → name ≠ "" →
        (mKeys (accumulate sh).1).count name = 1 ∧
        (evs.filter (fun e => decide (e.lang = name) &&
            decide (e.fname = "translation.json"))).map (·.path) =
          [od ++ [folderName name, "translation.json"]]) ∧
    (∀ name c, c ∈ eulaCols → headerVal sh c = .str name → name ≠ "" →
        (mKeys (accumulate sh).2).count name = 1 ∧
        (evs.filter (fun e => decide (e.lang = name) &&
            decide (e.fname = "eula.json"))).map (·.path) =
          [od ++ [folderName name, "eula.json"]]) ∧
    (∀ name, (∀ c ∈ transCols, headerName sh c ≠ some name) →
        (mKeys (accumulate sh).1).count name = 0 ∧
        evs.filter (fun e => decide (e.lang = name) &&
          decide (e.fname = "translation.json")) = []) ∧
    (∀ name, (∀ c ∈ eulaCols, headerName sh c ≠ some name) →
        (mKeys (accumulate sh).2).count name = 0 ∧
        evs.filter (fun e => decide (e.lang = name) &&
          decide (e.fname = "eula.json")) = []) := by
  have hevs := exportInner_ok_events wb sh od fs0 fse evs hsh hok
  have hfilter : ∀ (name fn fn' : String) (acc acc' : LangMap), fn ≠ fn' →
      ((jsEntries acc).map (mkEvent fn od) ++
        (jsEntries acc').map (mkEvent fn' od)).filter
          (fun e => decide (e.lang = name) && decide (e.fname = fn)) =
        ((jsEntries acc).filter (fun e => e.1 = name)).map (mkEvent fn od) := by
    intro name fn fn' acc acc' hfn
    rw [List.filter_append, List.filter_map, List.filter_map]
    have hcongr1 : (jsEntries acc).filter
        ((fun e => decide (e.lang = name) && decide (e.fname = fn)) ∘
          mkEvent fn od) =
        (jsEntries acc).filter (fun e => e.1 = name) := by
      apply List.filter_congr
      intro x _
      simp [mkEvent]
    have hcongr2 : (jsEntries acc').filter
        ((fun e => decide (e.lang = name) && decide (e.fname = fn)) ∘
          mkEvent fn' od) = [] := by
      rw [List.filter_eq_nil_iff]
      intro x _
      have hdf : decide (fn' = fn) = false :=
        decide_eq_false (fun hh => hfn hh.symm)
      simp [mkEvent, hdf]
    rw [hcongr1, hcongr2, List.map_nil, List.append_nil]
  have hpos : ∀ (name : String) (acc : LangMap) (fn : String),
      (mKeys acc).Nodup → name ∈ mKeys acc →
      (((jsEntries acc).filter (fun e => e.1 = name)).map
          (mkEvent fn od)).map (·.path) = [od ++ [folderName name, fn]] := by
    intro name acc fn hnd hmem
    rcases mem_keys_lookup acc name hmem with ⟨d, hd⟩
    have hperm : ((jsEntries acc).filter (fun e => e.1 = name)).Perm
        (acc.filter (fun e => e.1 = name)) :=
      (jsEntries_perm acc).filter _
    rw [filter_keys name acc d hnd hd] at hperm
    rw [List.perm_singleton.1 hperm]
    simp [mkEvent]
  have hneg : ∀ (name : String) (acc : LangMap),
      name ∉ mKeys acc →
      ((jsEntries acc).filter (fun e => e.1 = name)) = [] := by
    intro name acc hmem
    have hperm : ((jsEntries acc).filter (fun e => e.1 = name)).Perm
        (acc.filter (fun e => e.1 = name)) :=
      (jsEntries_perm acc).filter _
    rw [filter_keys_none acc name hmem] at hperm
    exact hperm.eq_nil
  refine ⟨?_, ?_, ?_, ?_⟩
  · intro name c hc hv hne
    have hmem : name ∈ mKeys (accumulate sh).1 := by
      rw [(keys_accumulate sh).1]
      exact (initKeys_mem sh transCols name).2
        ⟨c, hc, headerName_of_text sh c name hv hne⟩
    have hnd : (mKeys (accumulate sh).1).Nodup := by
      rw [(keys_accumulate sh).1]; exact initKeys_nodup sh transCols
    refine ⟨count_one_of_nodup_mem hnd hmem, ?_⟩
    rw [hevs, hfilter name "translation.json" "eula.json" _ _ (by decide)]
    exact hpos name (accumulate sh).1 "translation.json" hnd hmem
  · intro name c hc hv hne
    have hmem : name ∈ mKeys (accumulate sh).2 := by
      rw [(keys_accumulate sh).2]
      exact (initKeys_mem sh eulaCols name).2
        ⟨c, hc, headerName_of_text sh c name hv hne⟩
    have hnd : (mKeys (accumulate sh).2).Nodup := by
      rw [(keys_accumulate sh).2]; exact initKeys_nodup sh eulaCols
    refine ⟨count_one_of_nodup_mem hnd hmem, ?_⟩
    have hcomm : ∀ (p : FileEvent → Bool) (l1 l2 : List FileEvent),
        (l1.filter p = []) → (l1 ++ l2).filter p = l2.filter p := by
      intro p l1 l2 h1
      rw [List.filter_append, h1, List.nil_append]
    rw [hevs]
    have h1 : ((jsEntries (accumulate sh).1).map
        (mkEvent "translation.json" od)).filter
          (fun e => decide (e.lang = name) && decide (e.fname = "eula.json")) =
        [] := by
      rw [List.filter_map]
      have hfe : (jsEntries (accumulate sh).1).filter
          ((fun e => decide (e.lang = name) && decide (e.fname = "eula.json")) ∘
            mkEvent "translation.json" od) = [] := by
        rw [List.filter_eq_nil_iff]
        intro x _
        simp [mkEvent]
      rw [hfe, List.map_nil]
    rw [List.filter_append, h1, List.nil_append, List.filter_map]
    have hcongr : (jsEntries (accumulate sh).2).filter
        ((fun e => decide (e.lang = name) && decide (e.fname = "eula.json")) ∘
          mkEvent "eula.json" od) =
        (jsEntries (accumulate sh).2).filter (fun e => e.1 = name) := by
      apply List.filter_congr
      intro x _
      simp [mkEvent]
    rw [hcongr]
    exact hpos name (accumulate sh).2 "eula.json" hnd hmem
  · intro name hnone
    have hmem : name ∉ mKeys (accumulate sh).1 := by
      rw [(keys_accumulate sh).1]
      intro hmem
      rcases (initKeys_mem sh transCols name).1 hmem with ⟨c, hc, hn⟩
      exact hnone c hc hn
    refine ⟨List.count_eq_zero.2 hmem, ?_⟩
    rw [hevs, hfilter name "translation.json" "eula.json" _ _ (by decide),
      hneg name (accumulate sh).1 hmem, List.map_nil]
  · intro name hnone
    have hmem : name ∉ mKeys (accumulate sh).2 := by
      rw [(keys_accumulate sh).2]
      intro hmem
      rcases (initKeys_mem sh eulaCols name).1 hmem with ⟨c, hc, hn⟩
      exact hnone c hc hn
    refine ⟨List.count_eq_zero.2 hmem, ?_⟩
    rw [hevs]
    have h1 : ((jsEntries (accumulate sh).1).map
        (mkEvent "translation.json" od)).filter
          (fun e => decide (e.lang = name) && decide (e.fname = "eula.json")) =
        [] := by
      rw [List.filter_map]
      have hfe : (jsEntries (accumulate sh).1).filter
          ((fun e => decide (e.lang = name) && decide (e.fname = "eula.json")) ∘
            mkEvent "translation.json" od) = [] := by
        rw [List.filter_eq_nil_iff]
        intro x _
        simp [mkEvent]
      rw [hfe, List.map_nil]
    rw [List.filter_append, h1, List.nil_append, List.filter_map]
    have hcongr : (jsEntries (accumulate sh).2).filter
        ((fun e => decide (e.lang = name) && decide (e.fname = "eula.json")) ∘
          mkEvent "eula.json" od) =
        (jsEntries (accumulate sh).2).filter (fun e => e.1 = name) := by
      apply List.filter_congr
      intro x _
      simp [mkEvent]
    rw [hcongr, hneg name (accumulate sh).2 hmem, List.map_nil]

theorem c6_witness :
    lookupSheet wbDemo sheetName = some shDemo ∧
    exportInner (.ok wbDemo) ["out"] fsEmpty = .ok (fsDemo, [evDemo]) ∧
    ((mKeys (accumulate shDemo).1).count "English" = 1 ∧
      (([evDemo] : List FileEvent).filter
          (fun e => decide (e.lang = "English") &&
            decide (e.fname = "translation.json"))).map (·.path) =
        [["out"] ++ [folderName "English", "translation.json"]]) :=
  ⟨by decide, rfl,
   (c6_one_file_per_language wbDemo shDemo ["out"] fsEmpty fsDemo [evDemo]
      (by decide) rfl).1 "English" 1 (by decide) (by decide) (by decide)⟩

/-- Claim C10 (counterexample): two non-empty header cells carrying the
same language name merge into one dictionary and one file, so the
number of files (1) differs from the number of non-empty header cells
(2). -/
theorem c10_counterexample :
    (exportTranslation (.ok wbDup) ["out"] fsEmpty).1 =
      .success "Export completed successfully!" 1
        [["out", "en", "translation.json"]] ∧
    truthyHeaderCount shDup transCols + truthyHeaderCount shDup eulaCols = 2 ∧
    (1 : Nat) ≠ 2 :=
  ⟨by decide, by decide, by decide⟩

/-- Claim C10 (amended): in every success result, `filesCreated` equals
the length of the `files` list, and both equal the number of *distinct*
language names seeded from the translation header range plus the number
of distinct language names seeded from the license header range — one
file per language per category, a name spanning several columns counted
once. -/
theorem c10_amended (wb : Workbook) (sh : Sheet) (od : List String)
    (fs0 fse : FS) (msg : String) (n : Nat) (files : List (List String))
    (hsh : lookupSheet wb sheetName = some sh)
    (hok : exportTranslation (.ok wb) od fs0 = (.success msg n files, fse)) :
    n = files.length ∧
    files.length = (mKeys (initLangs sh transCols)).length +
      (mKeys (initLangs sh eulaCols)).length := by
  unfold exportTranslation at hok
  cases hI : exportInner (.ok wb) od fs0 with
  | error ef =>
    rw [hI] at hok
    obtain ⟨e, fs⟩ := ef
    exact absurd (congrArg Prod.fst hok) (by simp)
  | ok p =>
    obtain ⟨fs3, evs⟩ := p
    rw [hI] at hok
    have h1 := congrArg Prod.fst hok
    simp only [Prod.fst] at h1
    injection h1 with hmsg hn hf
    constructor
    · rw [← hn, ← hf, List.length_map]
    · rw [← hf, List.length_map]
      rw [exportInner_ok_events wb sh od fs0 fs3 evs hsh hI]
      rw [List.length_append, List.length_map, List.length_map]
      have l1 : (jsEntries (accumulate sh).1).length =
          (mKeys (initLangs sh transCols)).length := by
        rw [(jsEntries_perm _).length_eq]
        calc (accumulate sh).1.length
            = (mKeys (accumulate sh).1).length := (List.length_map _ _).symm
          _ = (mKeys (initLangs sh transCols)).length := by
              rw [(keys_accumulate sh).1]
      have l2 : (jsEntries (accumulate sh).2).length =
          (mKeys (initLangs sh eulaCols)).length := by
        rw [(jsEntries_perm _).length_eq]
        calc (accumulate sh).2.length
            = (mKeys (accumulate sh).2).length := (List.length_map _ _).symm
          _ = (mKeys (initLangs sh eulaCols)).length := by
              rw [(keys_accumulate sh).2]
      rw [l1, l2]

theorem c10_amended_witness :
    lookupSheet wbDemo sheetName = some shDemo ∧
    exportTranslation (.ok wbDemo) ["out"] fsEmpty =
      (.success "Export completed successfully!" 1
        [["out", "en", "translation.json"]], fsDemo) ∧
    (1 = [["out", "en", "translation.json"]].length ∧
      [["out", "en", "translation.json"]].length =
        (mKeys (initLangs shDemo transCols)).length +
          (mKeys (initLangs shDemo eulaCols)).length) :=
  ⟨by decide, by decide,
   c10_amended wbDemo shDemo ["out"] fsEmpty fsDemo
     "Export completed successfully!" 1 [["out", "en", "translation.json"]]
     (by decide) (by decide)⟩

/-- Claim C4 (counterexample): the output directory is created with a
plain, non-recursive `mkdirSync`, so when an ancestor of the output
directory is missing the export fails and the directory is not created
— intermediate directories are not created, contrary to the claim. -/
theorem c4_counterexample :
    (exportTranslation (.ok wbEmpty) ["a", "b"] fsEmpty).2 = fsEmpty ∧
    (exportTranslation (.ok wbEmpty) ["a", "b"] fsEmpty).1.isSuccess = false ∧
    dirExists (exportTranslation (.ok wbEmpty) ["a", "b"] fsEmpty).2
      ["a", "b"] = false :=
  ⟨by decide, by decide, by decide⟩

/-- Claim C4 (amended): before writing any file the Orchestrator
ensures the output directory exists, creating it when missing — but
only as a single level: when the parent directory exists the step
succeeds and afterwards the output directory exists with no file
written, and when both the directory and its parent are missing the
step throws ENOENT and the export fails.  (Only the per-language
subfolders are created with the recursive flag.) -/
theorem c4_mkdir_single_level :
    (∀ (fs : FS) (od : List String), dirExists fs od.dropLast = true →
        ∃ fs2, ensureOutputDir fs od = .ok fs2 ∧ dirExists fs2 od = true ∧
          fs2.files = fs.files) ∧
    (∀ (fs : FS) (od : List String), dirExists fs od = false →
        dirExists fs od.dropLast = false →
        ensureOutputDir fs od = .error
          ⟨"ENOENT: no such file or directory, mkdir " ++
            String.intercalate "/" od⟩) := by
  constructor
  · intro fs od hpar
    by_cases h : dirExists fs od
    · exact ⟨fs, by simp [ensureOutputDir, h], h, rfl⟩
    · refine ⟨⟨fs.dirs ++ [od], fs.files⟩, ?_, ?_, rfl⟩
      · simp [ensureOutputDir, h, mkdirOne, hpar]
      · simp [dirExists]
  · intro fs od hod hpar
    simp [ensureOutputDir, hod, mkdirOne, hpar]

theorem c4_witness :
    (dirExists ⟨[["a"]], []⟩ (["a", "b"].dropLast) = true ∧
      ∃ fs2, ensureOutputDir ⟨[["a"]], []⟩ ["a", "b"] = .ok fs2 ∧
        dirExists fs2 ["a", "b"] = true ∧
        fs2.files = (⟨[["a"]], []⟩ : FS).files) ∧
    (dirExists fsEmpty ["a", "b"] = false ∧
      ensureOutputDir fsEmpty ["a", "b"] = .error
        ⟨"ENOENT: no such file or directory, mkdir " ++
          String.intercalate "/" ["a", "b"]⟩) :=
  ⟨⟨by decide, c4_mkdir_single_level.1 ⟨[["a"]], []⟩ ["a", "b"] (by decide)⟩,
   ⟨by decide, c4_mkdir_single_level.2 fsEmpty ["a", "b"] (by decide) (by decide)⟩⟩

theorem parseStringBody_quote (rest : List Char) :
    parseStringBody ('"' :: rest) = some ([], rest) := by
  conv_lhs => rw [parseStringBody.eq_def]
  simp

theorem parseStringBody_cons_safe (c : Char) (l : List Char) (hq : c ≠ '"')
    (hbs : c ≠ '\\') (hctl : 0x20 ≤ c.toNat) :
    parseStringBody (c :: l) =
      (parseStringBody l).map (fun p => (c :: p.1, p.2)) := by
  conv_lhs => rw [parseStringBody.eq_def]
  simp only [if_neg hq, if_neg hbs, if_neg (Nat.not_lt.2 hctl)]

theorem parseStringBody_safe :
    ∀ (b rest : List Char), (∀ c ∈ b, SafeChar c) →
      parseStringBody (b ++ '"' :: rest) = some (b, rest) := by
  intro b
  induction b with
  | nil =>
    intro rest _
    exact parseStringBody_quote rest
  | cons c b' ih =>
    intro rest hb
    obtain ⟨hq, hbs, hctl⟩ := hb c (List.mem_cons_self c b')
    rw [List.cons_append, parseStringBody_cons_safe c _ hq hbs hctl,
      ih rest (fun x hx => hb x (List.mem_cons_of_mem c hx))]
    rfl

theorem skipWs_cons_ws (c : Char) (l : List Char) (h : jsonWs c = true) :
    skipWs (c :: l) = skipWs l := by
  simp [skipWs, List.dropWhile_cons, h]

theorem skipWs_cons_not (c : Char) (l : List Char) (h : jsonWs c = false) :
    skipWs (c :: l) = c :: l := by
  simp [skipWs, List.dropWhile_cons, h]

theorem skipWs_idem (l : List Char) : skipWs (skipWs l) = skipWs l := by
  induction l with
  | nil => rfl
  | cons c l' ih =>
    by_cases h : jsonWs c
    · rw [skipWs_cons_ws c l' h, ih]
    · rw [skipWs_cons_not c l' (by simpa using h),
        skipWs_cons_not c l' (by simpa using h)]

theorem parseMembers_skipWs (fuel : Nat) (l : List Char) :
    parseMembers fuel (skipWs l) = parseMembers fuel l := by
  cases fuel with
  | zero => rfl
  | succ f =>
    simp only [parseMembers]
    rw [skipWs_idem]

theorem parseValue_string (f : Nat) (w b rest : List Char)
    (hw : ∀ c ∈ w, jsonWs c = true) (hb : ∀ c ∈ b, SafeChar c) :
    parseValue (f + 1) (w ++ '"' :: (b ++ '"' :: rest)) =
      some (.str b, rest) := by
  have hskip : skipWs (w ++ '"' :: (b ++ '"' :: rest)) =
      '"' :: (b ++ '"' :: rest) := by
    unfold skipWs
    exact dropWhile_append_of_all _ w '"' _ hw (by decide)
  have hbody := parseStringBody_safe b rest hb
  simp [parseValue, hskip, hbody]

theorem parseMembers_ws_cons (fuel : Nat) (c : Char) (l : List Char)
    (h : jsonWs c = true) :
    parseMembers fuel (c :: l) = parseMembers fuel l := by
  rw [← parseMembers_skipWs fuel (c :: l), skipWs_cons_ws c l h,
    parseMembers_skipWs]

theorem parseMembers_one (f : Nat) (k v X : List Char)
    (hk : ∀ c ∈ k, SafeChar c) (hv : ∀ c ∈ v, SafeChar c) :
    parseMembers (f + 2)
        (' ' :: ' ' :: '"' :: (k ++ '"' :: ':' :: ' ' :: '"' :: (v ++ '"' :: X))) =
      match skipWs X with
      | ',' :: r5 => (parseMembers (f + 1) r5).map
          (fun p => ((k, JsonVal.str v) :: p.1, p.2))
      | '\x7d' :: r5 => some ([(k, JsonVal.str v)], r5)
      | _ => none := by
  have h1 : skipWs (' ' :: ' ' :: '"' ::
      (k ++ '"' :: ':' :: ' ' :: '"' :: (v ++ '"' :: X))) =
      '"' :: (k ++ '"' :: ':' :: ' ' :: '"' :: (v ++ '"' :: X)) := by
    rw [skipWs_cons_ws _ _ (by decide), skipWs_cons_ws _ _ (by decide),
      skipWs_cons_not _ _ (by decide)]
  have h2 := parseStringBody_safe k (':' :: ' ' :: '"' :: (v ++ '"' :: X)) hk
  have h3 : skipWs (':' :: ' ' :: '"' :: (v ++ '"' :: X)) =
      ':' :: ' ' :: '"' :: (v ++ '"' :: X) :=
    skipWs_cons_not _ _ (by decide)
  have h4 : parseValue (f + 1) (' ' :: '"' :: (v ++ '"' :: X)) =
      some (.str v, X) := by
    have h5 := parseValue_string f [' '] v X (by decide) hv
    simpa using h5
  simp only [parseMembers, h1, h2, h3, h4]

theorem parseMembers_members :
    ∀ (E : List (List Char × List Char)) (fuel : Nat) (tail : List Char),
      E ≠ [] → E.length + 1 ≤ fuel →
      (∀ kv ∈ E, (∀ c ∈ kv.1, SafeChar c) ∧ (∀ c ∈ kv.2, SafeChar c)) →
      parseMembers fuel
          (joinComma (E.map memberChars) ++ '\n' :: '\x7d' :: tail) =
        some (E.map (fun kv => (kv.1, JsonVal.str kv.2)), tail) := by
  intro E
  induction E with
  | nil => intro fuel tail hne; exact absurd rfl hne
  | cons kv E' ih =>
    intro fuel tail _ hfuel hsafe
    simp only [List.length_cons] at hfuel
    obtain ⟨f, rfl⟩ : ∃ f, fuel = f + 2 := ⟨fuel - 2, by omega⟩
    have hkv := hsafe kv (List.mem_cons_self kv E')
    cases E' with
    | nil =>
      have hsh : joinComma ([kv].map memberChars) ++ '\n' :: '\x7d' :: tail =
          ' ' :: ' ' :: '"' :: (kv.1 ++ '"' :: ':' :: ' ' :: '"' ::
            (kv.2 ++ '"' :: ('\n' :: '\x7d' :: tail))) := by
        simp [joinComma, memberChars, List.append_assoc]
      rw [hsh, parseMembers_one f kv.1 kv.2 _ hkv.1 hkv.2]
      rw [skipWs_cons_ws _ _ (by decide), skipWs_cons_not _ _ (by decide)]
      rfl
    | cons kv2 E'' =>
      have hsh : joinComma ((kv :: kv2 :: E'').map memberChars) ++
            '\n' :: '\x7d' :: tail =
          ' ' :: ' ' :: '"' :: (kv.1 ++ '"' :: ':' :: ' ' :: '"' ::
            (kv.2 ++ '"' :: (',' :: '\n' ::
              (joinComma ((kv2 :: E'').map memberChars) ++
                '\n' :: '\x7d' :: tail)))) := by
        simp [joinComma, memberChars, List.append_assoc]
      rw [hsh, parseMembers_one f kv.1 kv.2 _ hkv.1 hkv.2]
      rw [skipWs_cons_not _ _ (by decide)]
      show (parseMembers (f + 1) ('\n' ::
          (joinComma ((kv2 :: E'').map memberChars) ++
            '\n' :: '\x7d' :: tail))).map
          (fun p => ((kv.1, JsonVal.str kv.2) :: p.1, p.2)) = _
      rw [parseMembers_ws_cons _ _ _ (by decide)]
      rw [ih (f + 1) tail (by simp)
        (by simp only [List.length_cons] at hfuel ⊢; omega)
        (fun x hx => hsafe x (List.mem_cons_of_mem kv hx))]
      simp

theorem joinComma_len :
    ∀ (E : List (List Char × List Char)),
      E.length ≤ (joinComma (E.map memberChars)).length := by
  intro E
  induction E with
  | nil => simp [joinComma]
  | cons kv E' ih =>
    cases E' with
    | nil => simp [joinComma, memberChars]
    | cons kv2 E'' =>
      have hj : joinComma ((kv :: kv2 :: E'').map memberChars) =
          memberChars kv ++ ',' :: '\n' ::
            joinComma ((kv2 :: E'').map memberChars) := by
        simp [joinComma]
      rw [hj]
      simp only [List.length_append, List.length_cons]
      simp only [List.length_cons] at ih ⊢
      omega

theorem jsonChars_len (E : List (List Char × List Char)) :
    E.length + 4 ≤ (jsonChars E).length := by
  have := joinComma_len E
  simp only [jsonChars, List.length_append, List.length_cons]
  simp at this ⊢
  omega

theorem parseValue_obj (f : Nat) (Z : List Char) :
    parseValue (f + 1) ('\x7b' :: Z) =
      match skipWs Z with
      | '\x7d' :: r => some (.obj [], r)
      | r => (parseMembers f r).map (fun p => (.obj p.1, p.2)) := by
  simp only [parseValue]
  rw [skipWs_cons_not _ _ (by decide)]
  simp

theorem jsonParse_jsonChars (E : List (List Char × List Char))
    (hE : ∀ kv ∈ E, (∀ c ∈ kv.1, SafeChar c) ∧ (∀ c ∈ kv.2, SafeChar c)) :
    jsonParse (jsonChars E) =
      some (.obj (E.map (fun kv => (kv.1, JsonVal.str kv.2)))) := by
  cases E with
  | nil => rfl
  | cons kv E' =>
    have hlen := jsonChars_len (kv :: E')
    have hshape : jsonChars (kv :: E') =
        '\x7b' :: '\n' ::
          (joinComma ((kv :: E').map memberChars) ++ '\n' :: '\x7d' :: []) := by
      simp [jsonChars]
    have hform : ∃ W,
        joinComma ((kv :: E').map memberChars) ++ '\n' :: '\x7d' :: [] =
          ' ' :: ' ' :: '"' :: W := by
      cases E' with
      | nil =>
        exact ⟨kv.1 ++ '"' :: ':' :: ' ' :: '"' ::
            (kv.2 ++ '"' :: '\n' :: '\x7d' :: []),
          by simp [joinComma, memberChars, List.append_assoc]⟩
      | cons kv2 E'' =>
        exact ⟨kv.1 ++ '"' :: ':' :: ' ' :: '"' ::
            (kv.2 ++ '"' :: ',' :: '\n' ::
              (joinComma ((kv2 :: E'').map memberChars) ++
                '\n' :: '\x7d' :: [])),
          by simp [joinComma, memberChars, List.append_assoc]⟩
    obtain ⟨W, hW⟩ := hform
    have hLb : (kv :: E').length + 1 ≤ (jsonChars (kv :: E')).length := by omega
    have hpm : parseMembers ((jsonChars (kv :: E')).length)
        (joinComma ((kv :: E').map memberChars) ++ '\n' :: '\x7d' :: []) =
        some ((kv :: E').map (fun kv => (kv.1, JsonVal.str kv.2)), []) :=
      parseMembers_members (kv :: E') _ [] (by simp) hLb hE
    have hm2 : parseMembers ((jsonChars (kv :: E')).length) ('"' :: W) =
        some ((kv :: E').map (fun kv => (kv.1, JsonVal.str kv.2)), []) := by
      rw [← parseMembers_ws_cons _ ' ' _ (by decide),
        ← parseMembers_ws_cons _ ' ' _ (by decide), ← hW]
      exact hpm
    have hpv : parseValue ((jsonChars (kv :: E')).length + 1)
        (jsonChars (kv :: E')) =
        some (.obj ((kv :: E').map (fun kv => (kv.1, JsonVal.str kv.2))), []) := by
      conv_lhs => rw [hshape]
      rw [parseValue_obj]
      rw [hW, skipWs_cons_ws _ _ (by decide), skipWs_cons_ws _ _ (by decide),
        skipWs_cons_ws _ _ (by decide), skipWs_cons_not _ _ (by decide)]
      have hlen2 : ('\x7b' :: '\n' :: ' ' :: ' ' :: '"' :: W).length =
          (jsonChars (kv :: E')).length := by
        rw [hshape, hW]
      rw [hlen2]
      rw [show (match ('"' :: W : List Char) with
          | '\x7d' :: r => some (JsonVal.obj [], r)
          | r => (parseMembers ((jsonChars (kv :: E')).length) r).map
              (fun p => (JsonVal.obj p.1, p.2))) =
          (parseMembers ((jsonChars (kv :: E')).length) ('"' :: W)).map
            (fun p => (JsonVal.obj p.1, p.2)) from rfl]
      rw [hm2]
      rfl
    simp only [jsonParse, hpv]
    rfl

/-- Claim C1 (amended): for every dictionary whose keys and values
contain only JSON-safe characters (no quotes, no backslashes, no
control characters) and whose keys are not array-index strings, the
JSON Emitter's text is a valid JSON document: an object whose members
appear in the dictionary's insertion order with every key and value
spliced in verbatim.  (Values with control characters make the text
invalid, and array-index keys are reordered by `Object.entries`.) -/
theorem c1_amended_emitter (d : List (String × String))
    (hsafe : ∀ kv ∈ d, (∀ c ∈ kv.1.data, SafeChar c) ∧
      (∀ c ∈ kv.2.data, SafeChar c))
    (hidx : ∀ kv ∈ d, isArrayIndex kv.1 = false) :
    jsonParse (jsonStringOf d).data =
      some (.obj (d.map (fun kv => (kv.1.data, JsonVal.str kv.2.data)))) := by
  have hent : jsEntries d = d := by
    unfold jsEntries
    have h1 : d.filter (fun p => isArrayIndex p.1) = [] := by
      rw [List.filter_eq_nil_iff]
      intro kv hkv hp
      rw [hidx kv hkv] at hp
      cases hp
    have h2 : d.filter (fun p => !isArrayIndex p.1) = d := by
      rw [List.filter_eq_self]
      intro kv hkv
      rw [hidx kv hkv]
      rfl
    rw [h1, h2]
    rfl
  have hdata : (jsonStringOf d).data =
      jsonChars (d.map (fun kv => (kv.1.data, kv.2.data))) := by
    unfold jsonStringOf
    rw [hent]
  rw [hdata, jsonParse_jsonChars]
  · rw [List.map_map]
    rfl
  · intro kv hkv
    rcases List.mem_map.1 hkv with ⟨kv0, hkv0, rfl⟩
    exact ⟨(hsafe kv0 hkv0).1, (hsafe kv0 hkv0).2⟩

theorem c1_amended_witness :
    ((∀ kv ∈ ([("a", "b")] : List (String × String)),
        (∀ c ∈ (kv.1 : String).data, SafeChar c) ∧
        (∀ c ∈ (kv.2 : String).data, SafeChar c)) ∧
      (∀ kv ∈ ([("a", "b")] : List (String × String)),
        isArrayIndex kv.1 = false)) ∧
    jsonParse (jsonStringOf [("a", "b")]).data =
      some (.obj [("a".data, JsonVal.str "b".data)]) :=
  ⟨⟨by decide, by decide⟩,
   c1_amended_emitter [("a", "b")] (by decide) (by decide)⟩

end SST
